import Mathlib

/-!
Verification of the consolidation planner of `fuel_can_packer`
(`src/lib.rs`).  The Rust data model and the greedy solver
(`solve_greedy`, the default build without the `solver_z3` feature) are
embedded shallowly: `i32` values become `Int` (the planner's arithmetic
never approaches the `i32` bounds for physically meaningful inputs, and
no claim concerns overflow), vectors become lists, and fallible
functions return `Except String`.
-/

namespace FuelCan

/-- `CanSpec` from `src/lib.rs`: one immutable record per physical size. -/
structure CanSpec where
  name : String
  capacity : Int
  empty_weight : Int
deriving Repr, DecidableEq

/-- `Can` from `src/lib.rs`: one record per physical canister. -/
structure Can where
  id : String
  spec : CanSpec
  gross : Int
  fuel : Int
deriving Repr, DecidableEq

/-- `Plan` from `src/lib.rs`: keep flags, final fuel levels, and the
donors × recipients transfer matrix. -/
structure Plan where
  keep : List Bool
  final_fuel : List Int
  transfers : List (List Int)
deriving Repr, DecidableEq

/-- `GrossInput` from `src/lib.rs`. -/
structure GrossInput where
  msr_110 : List Int
  msr_227 : List Int
  msr_450 : List Int
deriving Repr, DecidableEq

deriving instance DecidableEq for Except

/-- The `MSR_110` catalog entry of `src/lib.rs`. -/
def MSR_110 : CanSpec := { name := "MSR 110g", capacity := 110, empty_weight := 101 }

/-- The `MSR_227` catalog entry of `src/lib.rs`. -/
def MSR_227 : CanSpec := { name := "MSR 227g", capacity := 227, empty_weight := 147 }

/-- The `MSR_450` catalog entry of `src/lib.rs`. -/
def MSR_450 : CanSpec := { name := "MSR 450g", capacity := 450, empty_weight := 216 }

/-- The error message produced by `push_cans` in `src/lib.rs` for a gross
weight below the spec's empty weight (the `format!` there, written as
string concatenation). -/
def grossErrMsg (gross : Int) (spec : CanSpec) : String :=
  "Gross weight " ++ toString gross ++ "g for " ++ spec.name ++
    " is lighter than empty can weight " ++ toString spec.empty_weight ++ "g"

/-- `push_cans` from `src/lib.rs`.  The Rust version appends to a shared
vector and aborts the whole batch on the first offending weight; since
the partially filled vector is discarded on error, returning the list of
new cans (or the first error) is the same function. -/
def push_cans (spec : CanSpec) : List Int → Except String (List Can)
  | [] => .ok []
  | gross :: rest =>
    let fuel := gross - spec.empty_weight
    if fuel < 0 then .error (grossErrMsg gross spec)
    else
      match push_cans spec rest with
      | .error e => .error e
      | .ok cs => .ok ({ id := "", spec := spec, gross := gross, fuel := fuel } :: cs)

/-- `build_cans_from_gross` from `src/lib.rs`. -/
def build_cans_from_gross (input : GrossInput) : Except String (List Can) :=
  match push_cans MSR_110 input.msr_110 with
  | .error e => .error e
  | .ok a =>
    match push_cans MSR_227 input.msr_227 with
    | .error e => .error e
    | .ok b =>
      match push_cans MSR_450 input.msr_450 with
      | .error e => .error e
      | .ok c => .ok (a ++ b ++ c)

/-- The identifier string `assign_ids` in `src/lib.rs` gives the can at
0-based position `idx` (the Rust `format!("Can #{} ({}g start)", idx + 1,
can.gross)`). -/
def idFor (idx : Nat) (gross : Int) : String :=
  "Can #" ++ toString (idx + 1) ++ " (" ++ toString gross ++ "g start)"

/-- `assign_ids` from `src/lib.rs`, written as a recursion carrying the
`enumerate` index. -/
def assignIdsFrom (idx : Nat) : List Can → List Can
  | [] => []
  | c :: cs => { c with id := idFor idx c.gross } :: assignIdsFrom (idx + 1) cs

/-- `assign_ids` from `src/lib.rs` (the `enumerate` starts at 0). -/
def assign_ids (cans : List Can) : List Can := assignIdsFrom 0 cans

/-- `total_fuel` from `src/lib.rs`. -/
def total_fuel (cans : List Can) : Int := (cans.map Can.fuel).sum

/-- Default canister used only as the out-of-range value of list
lookups; every lookup in the development is within range. -/
def dummyCan : Can := { id := "", spec := { name := "", capacity := 0, empty_weight := 0 }, gross := 0, fuel := 0 }

/-- The canister at index `i` (`cans[i]` in the Rust). -/
def canAt (cans : List Can) (i : Nat) : Can := cans.getD i dummyCan

/-- The indices selected by a Boolean flag list (`mask & (1 << i) != 0`
collected over `i < n`, with the flags materialised). -/
def selIdxs (n : Nat) (flags : List Bool) : List Nat :=
  (List.range n).filter (fun i => flags.getD i false)

/-- Combined capacity of the flagged subset (the `capacity` accumulator
of the mask loop in `solve_greedy`). -/
def subsetCap (cans : List Can) (flags : List Bool) : Int :=
  ((selIdxs cans.length flags).map (fun i => (canAt cans i).spec.capacity)).sum

/-- Combined empty weight of the flagged subset (the `empty_weight`
accumulator of the mask loop in `solve_greedy`). -/
def subsetEW (cans : List Can) (flags : List Bool) : Int :=
  ((selIdxs cans.length flags).map (fun i => (canAt cans i).spec.empty_weight)).sum

/-- Cardinality of the flagged subset (the `count` accumulator of the
mask loop in `solve_greedy`). -/
def subsetCount (cans : List Can) (flags : List Bool) : Nat :=
  (selIdxs cans.length flags).length

/-- The `keep_flags` vector built from a bitmask in `solve_greedy`. -/
def maskFlags (n mask : Nat) : List Bool :=
  (List.range n).map (fun i => mask.testBit i)

/-- State of the best-subset search in `solve_greedy`.  The Rust
initialises `best_weight`/`best_count` to the `i32::MAX`/`usize::MAX`
sentinels with `best_keep: Option`; since the first feasible mask always
replaces the sentinels, `best = none` carries the same information. -/
structure SelState where
  best : Option (List Bool)
  bestW : Int
  bestC : Nat

/-- One iteration of the mask loop of `solve_greedy`. -/
def selStep (cans : List Can) (T : Int) (s : SelState) (mask : Nat) : SelState :=
  let flags := maskFlags cans.length mask
  let capacity := subsetCap cans flags
  let ew := subsetEW cans flags
  let count := subsetCount cans flags
  if capacity < T then s
  else
    match s.best with
    | none => ⟨some flags, ew, count⟩
    | some _ =>
      if ew < s.bestW ∨ (ew = s.bestW ∧ count < s.bestC) then ⟨some flags, ew, count⟩ else s

/-- The brute-force subset search of `solve_greedy` (`for mask in
1..(1 << n)`), returning `best_keep`. -/
def selectBest (cans : List Can) (T : Int) : Option (List Bool) :=
  (((List.range (2 ^ cans.length)).drop 1).foldl (selStep cans T) ⟨none, 0, 0⟩).best

/-- `final_fuel` right after the "start by keeping current fuel in kept
cans" loop of `solve_greedy`. -/
def initialFinal (cans : List Can) (keep : List Bool) : List Int :=
  (List.range cans.length).map (fun i => if keep.getD i false then (canAt cans i).fuel else 0)

/-- `remaining` right after that loop: total fuel minus the fuel already
sitting in kept cans. -/
def remaining0 (cans : List Can) (keep : List Bool) : Int :=
  total_fuel cans - ((selIdxs cans.length keep).map (fun i => (canAt cans i).fuel)).sum

/-- Modify the element at an index of a list (no-op when out of range). -/
def modifyAt {α : Type} (f : α → α) : Nat → List α → List α
  | _, [] => []
  | 0, x :: xs => f x :: xs
  | n + 1, x :: xs => x :: modifyAt f n xs

/-- The order in which `solve_greedy` sorts `kept_idxs`:
`sort_by_key(|i| Reverse(spare i))` is a stable sort on a strictly
increasing index list, i.e. exactly the (unique) sort by descending key
with ties broken by ascending index. -/
def distRel (k : Nat → Int) (i j : Nat) : Prop :=
  k j < k i ∨ (k i = k j ∧ i ≤ j)

instance (k : Nat → Int) : DecidableRel (distRel k) := fun i j => by
  unfold distRel; infer_instance

instance (k : Nat → Int) : IsTotal Nat (distRel k) where
  total i j := by unfold distRel; omega

instance (k : Nat → Int) : IsTrans Nat (distRel k) where
  trans i j l hij hjl := by unfold distRel at *; omega

/-- The spare capacity `cans[i].spec.capacity - final_fuel[i]` at sort
time (the kept can still holds its own fuel). -/
def spareKey (cans : List Can) (keep : List Bool) (i : Nat) : Int :=
  (canAt cans i).spec.capacity - (initialFinal cans keep).getD i 0

/-- `kept_idxs`, sorted as in `solve_greedy`. -/
def distOrder (cans : List Can) (keep : List Bool) : List Nat :=
  (selIdxs cans.length keep).insertionSort (distRel (spareKey cans keep))

/-- The "distribute remaining fuel to kept cans by spare capacity" loop
of `solve_greedy`: walks the sorted kept indices, tops each can up by
`min spare remaining` and stops once `remaining ≤ 0` (the Rust `break`).
Returns the final `final_fuel` list and the final `remaining`. -/
def distribute (cans : List Can) : List Nat → List Int → Int → List Int × Int
  | [], final, remaining => (final, remaining)
  | idx :: rest, final, remaining =>
    if remaining ≤ 0 then (final, remaining)
    else
      let spare := (canAt cans idx).spec.capacity - final.getD idx 0
      let give := min spare remaining
      distribute cans rest (modifyAt (· + give) idx final) (remaining - give)

/-- The result of the distribution phase of `solve_greedy`. -/
def distResult (cans : List Can) (keep : List Bool) : List Int × Int :=
  distribute cans (distOrder cans keep) (initialFinal cans keep) (remaining0 cans keep)

/-- The `deficits` list of `solve_greedy`: `(index, positive need)` in
index order. -/
def deficitsOf (cans : List Can) (final : List Int) : List (Nat × Int) :=
  (List.range cans.length).filterMap (fun i =>
    let need := final.getD i 0 - (canAt cans i).fuel
    if 0 < need then some (i, need) else none)

/-- The `donors` list of `solve_greedy`: every dropped can donates its
whole fuel; a kept can donates `fuel - target` only when `target <
fuel`. -/
def donorsOf (cans : List Can) (keep : List Bool) (final : List Int) : List (Nat × Int) :=
  (List.range cans.length).filterMap (fun i =>
    let available := (canAt cans i).fuel
    if keep.getD i false then
      let target := final.getD i 0
      if target < available then some (i, available - target) else none
    else some (i, available))

/-- The transfer matrix, `donors × recipients`. -/
abbrev Mat := List (List Int)

/-- `vec![vec![0; n]; n]`. -/
def zeroMat (n : Nat) : Mat := List.replicate n (List.replicate n 0)

/-- `t[d][r]` (0 when out of range). -/
def matGet (t : Mat) (d r : Nat) : Int := (t.getD d []).getD r 0

/-- `transfers[d][r] += v`. -/
def matAdd (t : Mat) (d r : Nat) (v : Int) : Mat :=
  modifyAt (modifyAt (· + v) r) d t

/-- The inner loop of the transfer phase of `solve_greedy`: donor `d`
with `avail` fuel pours into the outstanding deficits in order,
transferring `min avail need` each step, stopping when its fuel runs out
(`d_available == 0` in the Rust) and skipping zero needs and zero gives.
Returns the updated matrix, the donor's leftover fuel, and the updated
deficit list. -/
def pour (d : Nat) : Int → List (Nat × Int) → Mat → Mat × Int × List (Nat × Int)
  | avail, [], t => (t, avail, [])
  | avail, (r, need) :: rest, t =>
    if need = 0 then
      let res := pour d avail rest t
      (res.1, res.2.1, (r, need) :: res.2.2)
    else
      let give := min avail need
      if give = 0 then
        let res := pour d avail rest t
        (res.1, res.2.1, (r, need) :: res.2.2)
      else
        let t' := matAdd t d r give
        if avail - give = 0 then (t', 0, (r, need - give) :: rest)
        else
          let res := pour d (avail - give) rest t'
          (res.1, res.2.1, (r, need - give) :: res.2.2)

/-- The outer loop of the transfer phase: each donor in turn pours into
the (persistently updated) deficit list. -/
def runDonors : List (Nat × Int) → List (Nat × Int) → Mat → Mat × List (Nat × Int)
  | [], defs, t => (t, defs)
  | (d, avail) :: ds, defs, t =>
    let res := pour d avail defs t
    runDonors ds res.2.2 res.1

/-- The transfer phase of `solve_greedy`, starting from the all-zero
matrix. -/
def transferResult (cans : List Can) (keep : List Bool) (final : List Int) :
    Mat × List (Nat × Int) :=
  runDonors (donorsOf cans keep final) (deficitsOf cans final) (zeroMat cans.length)

/-- The trivial plan returned by `solve_greedy` when the total fuel is
zero. -/
def trivialPlan (n : Nat) : Plan :=
  { keep := List.replicate n false
    final_fuel := List.replicate n 0
    transfers := List.replicate n (List.replicate n 0) }

/-- `solve_greedy` from `src/lib.rs`. -/
def solve_greedy (cans : List Can) : Except String Plan :=
  let T := total_fuel cans
  if T = 0 then .ok (trivialPlan cans.length)
  else
    match selectBest cans T with
    | none => .error "unable to carry enough capacity"
    | some keep =>
      let fr := distResult cans keep
      if 0 < fr.2 then .error "could not fit all fuel into kept cans"
      else
        let tr := transferResult cans keep fr.1
        if tr.2.any (fun q => decide (0 < q.2)) then
          .error "not enough donor fuel to satisfy plan"
        else .ok { keep := keep, final_fuel := fr.1, transfers := tr.1 }

/-- `solve_plan` from `src/lib.rs` (default build: the greedy solver). -/
def solve_plan (cans : List Can) : Except String Plan :=
  if cans.isEmpty then .error "no cans provided" else solve_greedy cans

/-- Row sum of the transfer matrix: total amount donated by `i`. -/
def outflow (t : Mat) (i : Nat) : Int := (t.getD i []).sum

/-- Column sum of the transfer matrix: total amount received by `i`. -/
def inflow (t : Mat) (i : Nat) : Int := (t.map (fun row => row.getD i 0)).sum

/-- The bitmask whose low bits are the given flag list (inverse of
`maskFlags`), used to relate arbitrary flag subsets to the masks the
search enumerates. -/
def flagsMask : List Bool → Nat
  | [] => 0
  | b :: bs => (if b then 1 else 0) + 2 * flagsMask bs

/-- Feasibility of a mask, as tested by the search loop. -/
def feasibleMask (cans : List Can) (T : Int) (mask : Nat) : Prop :=
  T ≤ subsetCap cans (maskFlags cans.length mask)

instance (cans : List Can) (T : Int) (mask : Nat) : Decidable (feasibleMask cans T mask) := by
  unfold feasibleMask; infer_instance

/-- Lexicographic order on (empty weight, cardinality) pairs. -/
def lexLE (w : Int) (c : Nat) (w' : Int) (c' : Nat) : Prop :=
  w < w' ∨ (w = w' ∧ c ≤ c')

/-- Loop invariant of the best-subset search after a list of masks has
been processed. -/
def selInv (cans : List Can) (T : Int) (processed : List Nat) (s : SelState) : Prop :=
  match s.best with
  | none => ∀ m ∈ processed, ¬ feasibleMask cans T m
  | some f =>
      (∃ m ∈ processed, feasibleMask cans T m ∧ f = maskFlags cans.length m) ∧
      s.bestW = subsetEW cans f ∧ s.bestC = subsetCount cans f ∧
      ∀ m ∈ processed, feasibleMask cans T m →
        lexLE s.bestW s.bestC (subsetEW cans (maskFlags cans.length m))
          (subsetCount cans (maskFlags cans.length m))

/-- Sum of the second components (total need of a deficit list, or total
availability of a donor list). -/
def needsSum (ds : List (Nat × Int)) : Int := (ds.map Prod.snd).sum

/-- Total need recorded for index `j` in a deficit list. -/
def needAt (j : Nat) (ds : List (Nat × Int)) : Int :=
  ((ds.filter (fun p => p.1 == j)).map Prod.snd).sum

/-- Well-formedness of an `n × n` matrix. -/
def MatWF (t : Mat) (n : Nat) : Prop :=
  t.length = n ∧ ∀ d, d < n → (t.getD d []).length = n

/-! ### List helper lemmas -/

theorem modifyAt_length {α : Type} (f : α → α) (i : Nat) (l : List α) :
    (modifyAt f i l).length = l.length := by
  induction l generalizing i with
  | nil => cases i <;> rfl
  | cons x xs ih => cases i with
    | zero => rfl
    | succ j => simpa [modifyAt] using ih j

theorem getD_modifyAt_ne {α : Type} (f : α → α) (i j : Nat) (l : List α) (d : α)
    (h : j ≠ i) : (modifyAt f i l).getD j d = l.getD j d := by
  induction l generalizing i j with
  | nil => cases i <;> rfl
  | cons x xs ih =>
    cases i with
    | zero =>
      cases j with
      | zero => exact absurd rfl h
      | succ j' => rfl
    | succ i' =>
      cases j with
      | zero => rfl
      | succ j' => simpa [modifyAt] using ih i' j' (fun hc => h (by omega))

theorem getD_modifyAt_self {α : Type} (f : α → α) (i : Nat) (l : List α) (d : α)
    (h : i < l.length) : (modifyAt f i l).getD i d = f (l.getD i d) := by
  induction l generalizing i with
  | nil => simp at h
  | cons x xs ih =>
    cases i with
    | zero => rfl
    | succ i' => simpa [modifyAt] using ih i' (by simpa using h)

theorem sum_modifyAt_add (g : Int) (i : Nat) (l : List Int) (h : i < l.length) :
    (modifyAt (· + g) i l).sum = l.sum + g := by
  induction l generalizing i with
  | nil => simp at h
  | cons x xs ih =>
    cases i with
    | zero => simp [modifyAt]; ring
    | succ i' =>
      have := ih i' (by simpa using h)
      simp only [modifyAt, List.sum_cons, this]
      ring

theorem range_getD_map {α : Type} (l : List α) (g : α → Int) (d : α) :
    ((List.range l.length).map (fun i => g (l.getD i d))).sum = (l.map g).sum := by
  induction l with
  | nil => simp
  | cons x xs ih =>
    rw [List.length_cons, List.range_succ_eq_map, List.map_cons, List.map_map]
    simp only [Function.comp_def, List.getD_cons_zero, List.getD_cons_succ, Nat.succ_eq_add_one]
    rw [List.sum_cons, List.map_cons, List.sum_cons, ih]

theorem sum_map_sub (l : List Nat) (f g : Nat → Int) :
    (l.map (fun i => f i - g i)).sum = (l.map f).sum - (l.map g).sum := by
  induction l with
  | nil => simp
  | cons x xs ih => simp only [List.map_cons, List.sum_cons, ih]; ring

theorem sum_filter_if (l : List Nat) (c : Nat → Bool) (f : Nat → Int) :
    ((l.filter c).map f).sum = (l.map (fun i => if c i then f i else 0)).sum := by
  induction l with
  | nil => simp
  | cons x xs ih =>
    by_cases h : c x <;> simp [List.filter_cons, h, ih]

/-! ### Canister builder and identifier assignment -/

theorem push_cans_ok (spec : CanSpec) (l : List Int)
    (h : ∀ g ∈ l, spec.empty_weight ≤ g) :
    push_cans spec l =
      .ok (l.map fun g => { id := "", spec := spec, gross := g, fuel := g - spec.empty_weight }) := by
  induction l with
  | nil => rfl
  | cons g rest ih =>
    have hg : ¬ g - spec.empty_weight < 0 := by
      have := h g (by simp)
      omega
    simp only [push_cans, if_neg hg, ih (fun g' hg' => h g' (by simp [hg'])), List.map_cons]

theorem push_cans_error (spec : CanSpec) (l : List Int)
    (h : ∃ g ∈ l, g < spec.empty_weight) :
    ∃ g, g < spec.empty_weight ∧ push_cans spec l = .error (grossErrMsg g spec) := by
  induction l with
  | nil => simp at h
  | cons g rest ih =>
    by_cases hg : g - spec.empty_weight < 0
    · exact ⟨g, by omega, by simp only [push_cans, if_pos hg]⟩
    · obtain ⟨g', hg', hlt⟩ := h
      rcases List.mem_cons.mp hg' with rfl | hmem
      · omega
      · obtain ⟨g0, h0, heq⟩ := ih ⟨g', hmem, hlt⟩
        refine ⟨g0, h0, ?_⟩
        simp only [push_cans, if_neg hg, heq]

/-- C8: `build_cans_from_gross` fails on the whole batch, with an error
naming the offending size and weight, exactly when some gross weight is
below its spec's empty weight; otherwise it produces one can per weight
with `fuel = gross - empty_weight`. -/
theorem build_cans_correct (input : GrossInput) :
    (((∃ g ∈ input.msr_110, g < MSR_110.empty_weight) ∨
      (∃ g ∈ input.msr_227, g < MSR_227.empty_weight) ∨
      (∃ g ∈ input.msr_450, g < MSR_450.empty_weight)) →
      ∃ g spec, (spec = MSR_110 ∨ spec = MSR_227 ∨ spec = MSR_450) ∧
        g < spec.empty_weight ∧
        build_cans_from_gross input = .error (grossErrMsg g spec)) ∧
    ((∀ g ∈ input.msr_110, MSR_110.empty_weight ≤ g) →
     (∀ g ∈ input.msr_227, MSR_227.empty_weight ≤ g) →
     (∀ g ∈ input.msr_450, MSR_450.empty_weight ≤ g) →
      build_cans_from_gross input =
        .ok ((input.msr_110.map fun g =>
                { id := "", spec := MSR_110, gross := g, fuel := g - MSR_110.empty_weight }) ++
             (input.msr_227.map fun g =>
                { id := "", spec := MSR_227, gross := g, fuel := g - MSR_227.empty_weight }) ++
             (input.msr_450.map fun g =>
                { id := "", spec := MSR_450, gross := g, fuel := g - MSR_450.empty_weight }))) := by
  constructor
  · intro hbad
    by_cases h110 : ∃ g ∈ input.msr_110, g < MSR_110.empty_weight
    · obtain ⟨g0, h0, heq⟩ := push_cans_error MSR_110 input.msr_110 h110
      exact ⟨g0, MSR_110, Or.inl rfl, h0, by simp only [build_cans_from_gross, heq]⟩
    · have h110' : ∀ g ∈ input.msr_110, MSR_110.empty_weight ≤ g := by
        intro g hg; by_contra hc; exact h110 ⟨g, hg, by omega⟩
      by_cases h227 : ∃ g ∈ input.msr_227, g < MSR_227.empty_weight
      · obtain ⟨g0, h0, heq⟩ := push_cans_error MSR_227 input.msr_227 h227
        exact ⟨g0, MSR_227, Or.inr (Or.inl rfl), h0, by
          simp only [build_cans_from_gross, push_cans_ok MSR_110 input.msr_110 h110', heq]⟩
      · have h227' : ∀ g ∈ input.msr_227, MSR_227.empty_weight ≤ g := by
          intro g hg; by_contra hc; exact h227 ⟨g, hg, by omega⟩
        rcases hbad with h | h | h
        · exact absurd h h110
        · exact absurd h h227
        · obtain ⟨g0, h0, heq⟩ := push_cans_error MSR_450 input.msr_450 h
          exact ⟨g0, MSR_450, Or.inr (Or.inr rfl), h0, by
            simp only [build_cans_from_gross, push_cans_ok MSR_110 input.msr_110 h110',
              push_cans_ok MSR_227 input.msr_227 h227', heq]⟩
  · intro h110 h227 h450
    simp only [build_cans_from_gross, push_cans_ok MSR_110 input.msr_110 h110,
      push_cans_ok MSR_227 input.msr_227 h227, push_cans_ok MSR_450 input.msr_450 h450]

/-- Concrete instance of the builder theorem: one valid weight per size. -/
theorem build_cans_correct_witness :
    build_cans_from_gross ⟨[141], [152], [250]⟩ =
      .ok (([(141 : Int)].map fun g =>
              { id := "", spec := MSR_110, gross := g, fuel := g - MSR_110.empty_weight }) ++
           ([(152 : Int)].map fun g =>
              { id := "", spec := MSR_227, gross := g, fuel := g - MSR_227.empty_weight }) ++
           ([(250 : Int)].map fun g =>
              { id := "", spec := MSR_450, gross := g, fuel := g - MSR_450.empty_weight })) :=
  (build_cans_correct ⟨[141], [152], [250]⟩).2 (by decide) (by decide) (by decide)

theorem assignIdsFrom_idem (idx : Nat) (cans : List Can) :
    assignIdsFrom idx (assignIdsFrom idx cans) = assignIdsFrom idx cans := by
  induction cans generalizing idx with
  | nil => rfl
  | cons c cs ih => simp only [assignIdsFrom, ih]

theorem assignIdsFrom_getD (k : Nat) (cans : List Can) (i : Nat) (h : i < cans.length) :
    ((assignIdsFrom k cans).getD i dummyCan).id = idFor (k + i) ((cans.getD i dummyCan).gross) := by
  induction cans generalizing k i with
  | nil => simp at h
  | cons c cs ih =>
    cases i with
    | zero => simp [assignIdsFrom]
    | succ i' =>
      have := ih (k + 1) i' (by simpa using h)
      simpa [assignIdsFrom, Nat.add_assoc, Nat.add_comm 1 i'] using this

/-- C9: `assign_ids` is idempotent, and the identifier of each canister
is a function of its position and starting gross weight alone. -/
theorem assign_ids_idempotent_positional (cans : List Can) :
    assign_ids (assign_ids cans) = assign_ids cans ∧
    ∀ i, i < cans.length →
      ((assign_ids cans).getD i dummyCan).id = idFor i ((cans.getD i dummyCan).gross) := by
  refine ⟨assignIdsFrom_idem 0 cans, fun i hi => ?_⟩
  simpa using assignIdsFrom_getD 0 cans i hi

/-- Concrete instance of the identifier theorem at position 1. -/
theorem assign_ids_idempotent_positional_witness :
    ((assign_ids [{ id := "", spec := MSR_110, gross := 141, fuel := 40 },
                  { id := "", spec := MSR_227, gross := 152, fuel := 5 }]).getD 1 dummyCan).id =
      idFor 1 (([{ id := "", spec := MSR_110, gross := 141, fuel := 40 },
                 { id := "", spec := MSR_227, gross := 152, fuel := 5 }].getD 1 dummyCan).gross) :=
  (assign_ids_idempotent_positional _).2 1 (by decide)

/-! ### The zero-fuel trivial plan -/

/-- C7: with zero total fuel, `solve_plan` keeps nothing, zeroes every
final fuel level, and moves nothing. -/
theorem plan_zero_fuel (cans : List Can) (hne : cans ≠ []) (hT : total_fuel cans = 0) :
    solve_plan cans =
      .ok { keep := List.replicate cans.length false
            final_fuel := List.replicate cans.length 0
            transfers := List.replicate cans.length (List.replicate cans.length 0) } := by
  have hemp : cans.isEmpty = false := by
    cases cans with
    | nil => exact absurd rfl hne
    | cons c cs => rfl
  simp only [solve_plan, hemp, Bool.false_eq_true, if_false, solve_greedy, hT, if_pos]
  rfl

/-- Concrete instance of the zero-fuel theorem: two empty cans. -/
theorem plan_zero_fuel_witness :
    solve_plan [{ id := "", spec := MSR_110, gross := 101, fuel := 0 },
                { id := "", spec := MSR_227, gross := 147, fuel := 0 }] =
      .ok { keep := List.replicate 2 false
            final_fuel := List.replicate 2 0
            transfers := List.replicate 2 (List.replicate 2 0) } :=
  plan_zero_fuel _ (by decide) (by decide)

/-! ### The subset-selection search -/

theorem selStep_inv (cans : List Can) (T : Int) (pr : List Nat) (s : SelState) (m : Nat)
    (hinv : selInv cans T pr s) : selInv cans T (pr ++ [m]) (selStep cans T s m) := by
  obtain ⟨best, bw, bc⟩ := s
  by_cases hfe : subsetCap cans (maskFlags cans.length m) < T
  · have hstep : selStep cans T ⟨best, bw, bc⟩ m = ⟨best, bw, bc⟩ := by
      simp only [selStep, if_pos hfe]
    rw [hstep]
    have hnf : ¬ feasibleMask cans T m := by unfold feasibleMask; omega
    cases best with
    | none =>
      intro m' hm'
      rcases List.mem_append.mp hm' with h | h
      · exact hinv m' h
      · simp only [List.mem_singleton] at h; subst h; exact hnf
    | some f =>
      obtain ⟨⟨m0, hm0, hm0f, hm0e⟩, hw, hc, hopt⟩ := hinv
      refine ⟨⟨m0, List.mem_append_left _ hm0, hm0f, hm0e⟩, hw, hc, fun m' hm' hf => ?_⟩
      rcases List.mem_append.mp hm' with h | h
      · exact hopt m' h hf
      · simp only [List.mem_singleton] at h; subst h; exact absurd hf hnf
  · have hfeas : feasibleMask cans T m := by unfold feasibleMask; omega
    cases best with
    | none =>
      have hstep : selStep cans T ⟨none, bw, bc⟩ m =
          ⟨some (maskFlags cans.length m), subsetEW cans (maskFlags cans.length m),
            subsetCount cans (maskFlags cans.length m)⟩ := by
        simp only [selStep, if_neg hfe]
      rw [hstep]
      refine ⟨⟨m, List.mem_append_right _ (by simp), hfeas, rfl⟩, rfl, rfl, ?_⟩
      intro m' hm' hf
      rcases List.mem_append.mp hm' with h | h
      · exact absurd hf (hinv m' h)
      · simp only [List.mem_singleton] at h; subst h; exact Or.inr ⟨rfl, le_refl _⟩
    | some f =>
      obtain ⟨⟨m0, hm0, hm0f, hm0e⟩, hw, hc, hopt⟩ := hinv
      by_cases himp : subsetEW cans (maskFlags cans.length m) < bw ∨
          (subsetEW cans (maskFlags cans.length m) = bw ∧
           subsetCount cans (maskFlags cans.length m) < bc)
      · have hstep : selStep cans T ⟨some f, bw, bc⟩ m =
            ⟨some (maskFlags cans.length m), subsetEW cans (maskFlags cans.length m),
              subsetCount cans (maskFlags cans.length m)⟩ := by
          simp only [selStep, if_neg hfe, if_pos himp]
        rw [hstep]
        refine ⟨⟨m, List.mem_append_right _ (by simp), hfeas, rfl⟩, rfl, rfl, ?_⟩
        intro m' hm' hf
        rcases List.mem_append.mp hm' with h | h
        · have hold := hopt m' h hf
          unfold lexLE at hold ⊢
          dsimp only at hold hw hc ⊢
          omega
        · simp only [List.mem_singleton] at h; subst h; exact Or.inr ⟨rfl, le_refl _⟩
      · have hstep : selStep cans T ⟨some f, bw, bc⟩ m = ⟨some f, bw, bc⟩ := by
          simp only [selStep, if_neg hfe, if_neg himp]
        rw [hstep]
        refine ⟨⟨m0, List.mem_append_left _ hm0, hm0f, hm0e⟩, hw, hc, fun m' hm' hf => ?_⟩
        rcases List.mem_append.mp hm' with h | h
        · exact hopt m' h hf
        · simp only [List.mem_singleton] at h; subst h
          unfold lexLE
          dsimp only at hw hc ⊢
          omega

theorem selFold_inv (cans : List Can) (T : Int) :
    ∀ (masks : List Nat) (pr : List Nat) (s : SelState),
      selInv cans T pr s → selInv cans T (pr ++ masks) (masks.foldl (selStep cans T) s)
  | [], pr, s, h => by simpa using h
  | m :: ms, pr, s, h => by
    have := selFold_inv cans T ms (pr ++ [m]) (selStep cans T s m)
      (selStep_inv cans T pr s m h)
    simpa [List.append_assoc] using this

theorem selectBest_inv (cans : List Can) (T : Int) :
    selInv cans T ((List.range (2 ^ cans.length)).drop 1)
      (((List.range (2 ^ cans.length)).drop 1).foldl (selStep cans T) ⟨none, 0, 0⟩) := by
  have h0 : selInv cans T [] ⟨none, 0, 0⟩ := by
    intro m hm; exact absurd hm (List.not_mem_nil m)
  simpa using selFold_inv cans T ((List.range (2 ^ cans.length)).drop 1) [] _ h0

theorem mem_masks_iff (n m : Nat) : m ∈ (List.range (2 ^ n)).drop 1 ↔ 1 ≤ m ∧ m < 2 ^ n := by
  have h1 : 1 ≤ 2 ^ n := Nat.one_le_two_pow
  obtain ⟨k, hk⟩ : ∃ k, 2 ^ n = k + 1 := ⟨2 ^ n - 1, by omega⟩
  rw [hk, List.range_succ_eq_map]
  simp only [List.drop_succ_cons, List.drop_zero, List.mem_map, List.mem_range,
    Nat.succ_eq_add_one]
  constructor
  · rintro ⟨j, hj, rfl⟩; omega
  · rintro ⟨h1m, h2m⟩; exact ⟨m - 1, by omega, by omega⟩

theorem maskFlags_length (n mask : Nat) : (maskFlags n mask).length = n := by
  simp [maskFlags]

theorem selectBest_none_spec (cans : List Can) (T : Int)
    (hnone : selectBest cans T = none) :
    ∀ m, 1 ≤ m → m < 2 ^ cans.length → ¬ feasibleMask cans T m := by
  have hinv := selectBest_inv cans T
  unfold selectBest at hnone
  set s := ((List.range (2 ^ cans.length)).drop 1).foldl (selStep cans T) ⟨none, 0, 0⟩ with hs
  intro m h1 h2
  rcases hbest : s.best with _ | f
  · have : selInv cans T ((List.range (2 ^ cans.length)).drop 1) s := hinv
    rw [selInv, hbest] at this
    exact this m ((mem_masks_iff cans.length m).mpr ⟨h1, h2⟩)
  · rw [hbest] at hnone; exact absurd hnone (by simp)

theorem selectBest_some_spec (cans : List Can) (T : Int) (f : List Bool)
    (hsome : selectBest cans T = some f) :
    f.length = cans.length ∧ T ≤ subsetCap cans f ∧
    ∀ m, 1 ≤ m → m < 2 ^ cans.length → feasibleMask cans T m →
      lexLE (subsetEW cans f) (subsetCount cans f)
        (subsetEW cans (maskFlags cans.length m))
        (subsetCount cans (maskFlags cans.length m)) := by
  have hinv := selectBest_inv cans T
  unfold selectBest at hsome
  set s := ((List.range (2 ^ cans.length)).drop 1).foldl (selStep cans T) ⟨none, 0, 0⟩ with hs
  have hinv' : selInv cans T ((List.range (2 ^ cans.length)).drop 1) s := hinv
  rcases hbest : s.best with _ | f'
  · rw [hbest] at hsome; exact absurd hsome (by simp)
  · rw [hbest] at hsome
    have hf : f' = f := by injection hsome
    subst hf
    rw [selInv, hbest] at hinv'
    obtain ⟨⟨m0, hm0, hm0f, hm0e⟩, hw, hc, hopt⟩ := hinv'
    refine ⟨by rw [hm0e]; exact maskFlags_length _ _, ?_, ?_⟩
    · unfold feasibleMask at hm0f; rw [hm0e]; exact hm0f
    · intro m h1 h2 hf
      have := hopt m ((mem_masks_iff cans.length m).mpr ⟨h1, h2⟩) hf
      rwa [hw, hc] at this

theorem selectBest_isSome (cans : List Can) (T : Int)
    (hex : ∃ m, 1 ≤ m ∧ m < 2 ^ cans.length ∧ feasibleMask cans T m) :
    ∃ f, selectBest cans T = some f := by
  rcases h : selectBest cans T with _ | f
  · obtain ⟨m, h1, h2, hfe⟩ := hex
    exact absurd hfe (selectBest_none_spec cans T h m h1 h2)
  · exact ⟨f, rfl⟩

theorem testBit_flagsMask (bs : List Bool) (i : Nat) :
    (flagsMask bs).testBit i = bs.getD i false := by
  induction bs generalizing i with
  | nil => simp [flagsMask, Nat.zero_testBit]
  | cons b bs ih =>
    cases i with
    | zero =>
      cases b
      · have : (0 + 2 * flagsMask bs) % 2 = 0 := by omega
        simp [flagsMask, Nat.testBit_zero, this]
      · have : (1 + 2 * flagsMask bs) % 2 = 1 := by omega
        simp [flagsMask, Nat.testBit_zero, this]
    | succ i' =>
      have hdiv : ((if b then 1 else 0) + 2 * flagsMask bs) / 2 = flagsMask bs := by
        cases b with
        | false => show (0 + 2 * flagsMask bs) / 2 = flagsMask bs; omega
        | true => show (1 + 2 * flagsMask bs) / 2 = flagsMask bs; omega
      simp only [flagsMask, Nat.testBit_succ, hdiv, ih, List.getD_cons_succ]

theorem flagsMask_lt (bs : List Bool) : flagsMask bs < 2 ^ bs.length := by
  induction bs with
  | nil => simp [flagsMask]
  | cons b bs ih =>
    have : (2 : Nat) ^ (b :: bs).length = 2 ^ bs.length * 2 := by
      rw [List.length_cons, pow_succ]
    rw [this]
    cases b <;> simp [flagsMask] <;> omega

theorem maskFlags_flagsMask (bs : List Bool) (n : Nat) (h : bs.length = n) :
    maskFlags n (flagsMask bs) = bs := by
  subst h
  refine List.ext_getElem (by simp [maskFlags]) ?_
  intro i h1 h2
  simp only [maskFlags, List.getElem_map, List.getElem_range]
  rw [testBit_flagsMask]
  exact List.getD_eq_getElem bs false h2

theorem flagsMask_pos (cans : List Can) (T : Int) (bs : List Bool)
    (hT : 0 < T) (hcap : T ≤ subsetCap cans bs) : 1 ≤ flagsMask bs := by
  by_contra h0
  have hz : flagsMask bs = 0 := by omega
  have hall : ∀ i, bs.getD i false = false := by
    intro i
    have := testBit_flagsMask bs i
    rw [hz, Nat.zero_testBit] at this
    exact this.symm
  have hsel : selIdxs cans.length bs = [] := by
    unfold selIdxs
    refine List.filter_eq_nil_iff.mpr ?_
    intro i _
    rw [hall i]
    simp
  unfold subsetCap at hcap
  rw [hsel] at hcap
  simp at hcap
  omega

/-! ### The fuel-distribution loop -/

theorem distribute_length (cans : List Can) (l : List Nat) (f : List Int) (r : Int) :
    (distribute cans l f r).1.length = f.length := by
  induction l generalizing f r with
  | nil => rfl
  | cons idx rest ih =>
    by_cases hr : r ≤ 0
    · simp [distribute, hr]
    · simp only [distribute, if_neg hr]
      rw [ih, modifyAt_length]

theorem distribute_stay (cans : List Can) (l : List Nat) (f : List Int) (r : Int)
    (hr : r ≤ 0) : distribute cans l f r = (f, r) := by
  cases l with
  | nil => rfl
  | cons idx rest => simp [distribute, hr]

theorem distribute_untouched (cans : List Can) (l : List Nat) (f : List Int) (r : Int)
    (i : Nat) (hi : i ∉ l) : (distribute cans l f r).1.getD i 0 = f.getD i 0 := by
  induction l generalizing f r with
  | nil => rfl
  | cons idx rest ih =>
    by_cases hr : r ≤ 0
    · rw [distribute_stay cans _ f r hr]
    · simp only [distribute, if_neg hr]
      rw [ih _ _ (fun h => hi (List.mem_cons_of_mem _ h)),
        getD_modifyAt_ne _ _ _ _ _ (fun h => hi (by rw [h]; exact List.mem_cons_self _ _))]

theorem distribute_rem_nonneg (cans : List Can) (l : List Nat) (f : List Int) (r : Int)
    (hr : 0 ≤ r) : 0 ≤ (distribute cans l f r).2 := by
  induction l generalizing f r with
  | nil => simpa using hr
  | cons idx rest ih =>
    by_cases h0 : r ≤ 0
    · rw [distribute_stay cans _ f r h0]; exact hr
    · simp only [distribute, if_neg h0]
      have hmin : min ((canAt cans idx).spec.capacity - f.getD idx 0) r ≤ r :=
        min_le_right _ _
      exact ih _ _ (by omega)

theorem distribute_sum (cans : List Can) (l : List Nat) (f : List Int) (r : Int)
    (hl : ∀ i ∈ l, i < f.length) :
    (distribute cans l f r).1.sum + (distribute cans l f r).2 = f.sum + r := by
  induction l generalizing f r with
  | nil => rfl
  | cons idx rest ih =>
    by_cases h0 : r ≤ 0
    · rw [distribute_stay cans _ f r h0]
    · simp only [distribute, if_neg h0]
      have hrec := ih (modifyAt
          (· + min ((canAt cans idx).spec.capacity - f.getD idx 0) r) idx f)
        (r - min ((canAt cans idx).spec.capacity - f.getD idx 0) r)
        (fun i hi => by rw [modifyAt_length]; exact hl i (List.mem_cons_of_mem _ hi))
      rw [hrec, sum_modifyAt_add _ idx f (hl idx (List.mem_cons_self _ _))]
      ring

theorem distribute_allneg (cans : List Can) (l : List Nat) (f : List Int) (r : Int)
    (hr : 0 < r) (hneg : ∀ i ∈ l, (canAt cans i).spec.capacity - f.getD i 0 < 0)
    (hnd : l.Nodup) : 0 < (distribute cans l f r).2 := by
  induction l generalizing f r with
  | nil => simpa using hr
  | cons idx rest ih =>
    obtain ⟨hni, hnd'⟩ := List.nodup_cons.mp hnd
    have h0 : ¬ r ≤ 0 := by omega
    simp only [distribute, if_neg h0]
    have hsp : (canAt cans idx).spec.capacity - f.getD idx 0 < 0 :=
      hneg idx (List.mem_cons_self _ _)
    have hgive : min ((canAt cans idx).spec.capacity - f.getD idx 0) r =
        (canAt cans idx).spec.capacity - f.getD idx 0 := min_eq_left (by omega)
    rw [hgive]
    refine ih _ _ (by omega) ?_ hnd'
    intro i hi
    have hne : i ≠ idx := fun h => hni (h ▸ hi)
    rw [getD_modifyAt_ne _ _ _ _ _ hne]
    exact hneg i (List.mem_cons_of_mem _ hi)

theorem distribute_ge (cans : List Can) (l : List Nat) (f : List Int) (r : Int)
    (k : Nat → Int) (hk : ∀ i ∈ l, (canAt cans i).spec.capacity - f.getD i 0 = k i)
    (hsort : l.Pairwise (fun i j => k j ≤ k i)) (hnd : l.Nodup)
    (hlen : ∀ i ∈ l, i < f.length)
    (hend : (distribute cans l f r).2 ≤ 0) :
    ∀ i ∈ l, f.getD i 0 ≤ (distribute cans l f r).1.getD i 0 := by
  induction l generalizing f r with
  | nil => intro i hi; simp at hi
  | cons idx rest ih =>
    obtain ⟨hni, hnd'⟩ := List.nodup_cons.mp hnd
    have hsrt := List.pairwise_cons.mp hsort
    by_cases h0 : r ≤ 0
    · rw [distribute_stay cans _ f r h0]; intro i _; exact le_refl _
    · have hr : 0 < r := by omega
      rcases lt_or_le (k idx) 0 with hneg | hpos
      · exfalso
        have hall : ∀ i ∈ idx :: rest, (canAt cans i).spec.capacity - f.getD i 0 < 0 := by
          intro i hi
          rw [hk i hi]
          rcases List.mem_cons.mp hi with rfl | hmem
          · exact hneg
          · have := hsrt.1 i hmem; omega
        have := distribute_allneg cans (idx :: rest) f r hr hall hnd
        omega
      · simp only [distribute, if_neg h0] at hend ⊢
        have hgive0 : 0 ≤ min ((canAt cans idx).spec.capacity - f.getD idx 0) r := by
          rw [hk idx (List.mem_cons_self _ _)]
          exact le_min hpos (le_of_lt hr)
        set give := min ((canAt cans idx).spec.capacity - f.getD idx 0) r with hgv
        have hkrec : ∀ i ∈ rest,
            (canAt cans i).spec.capacity - (modifyAt (· + give) idx f).getD i 0 = k i := by
          intro i hi
          have hne : i ≠ idx := fun h => hni (h ▸ hi)
          rw [getD_modifyAt_ne _ _ _ _ _ hne]
          exact hk i (List.mem_cons_of_mem _ hi)
        have hlrec : ∀ i ∈ rest, i < (modifyAt (· + give) idx f).length := by
          intro i hi; rw [modifyAt_length]; exact hlen i (List.mem_cons_of_mem _ hi)
        intro i hi
        rcases List.mem_cons.mp hi with rfl | hmem
        · rw [distribute_untouched _ _ _ _ _ hni,
            getD_modifyAt_self _ _ _ _ (hlen i (List.mem_cons_self _ _))]
          omega
        · have hstep : f.getD i 0 = (modifyAt (· + give) idx f).getD i 0 := by
            have hne : i ≠ idx := fun h => hni (h ▸ hmem)
            rw [getD_modifyAt_ne _ _ _ _ _ hne]
          rw [hstep]
          exact ih _ _ hkrec hsrt.2 hnd' hlrec hend i hmem

theorem distribute_le (cans : List Can) (l : List Nat) (f : List Int) (r : Int)
    (hub : ∀ i ∈ l, f.getD i 0 ≤ (canAt cans i).spec.capacity)
    (hlen : ∀ i ∈ l, i < f.length) :
    ∀ i ∈ l, (distribute cans l f r).1.getD i 0 ≤ (canAt cans i).spec.capacity := by
  induction l generalizing f r with
  | nil => intro i hi; simp at hi
  | cons idx rest ih =>
    by_cases h0 : r ≤ 0
    · rw [distribute_stay cans _ f r h0]; exact hub
    · simp only [distribute, if_neg h0]
      set give := min ((canAt cans idx).spec.capacity - f.getD idx 0) r with hgv
      have hgs : give ≤ (canAt cans idx).spec.capacity - f.getD idx 0 := min_le_left _ _
      have hub' : ∀ j ∈ rest, (modifyAt (· + give) idx f).getD j 0 ≤
          (canAt cans j).spec.capacity := by
        intro j hj
        by_cases hje : j = idx
        · subst hje
          rw [getD_modifyAt_self _ _ _ _ (hlen j (List.mem_cons_self _ _))]
          have := hub j (List.mem_cons_self _ _)
          omega
        · rw [getD_modifyAt_ne _ _ _ _ _ hje]
          exact hub j (List.mem_cons_of_mem _ hj)
      have hlen' : ∀ j ∈ rest, j < (modifyAt (· + give) idx f).length := by
        intro j hj; rw [modifyAt_length]; exact hlen j (List.mem_cons_of_mem _ hj)
      intro i hi
      rcases List.mem_cons.mp hi with rfl | hmem
      · by_cases hmem2 : i ∈ rest
        · exact ih _ _ hub' hlen' i hmem2
        · rw [distribute_untouched _ _ _ _ _ hmem2,
            getD_modifyAt_self _ _ _ _ (hlen i (List.mem_cons_self _ _))]
          have := hub i (List.mem_cons_self _ _)
          omega
      · exact ih _ _ hub' hlen' i hmem

theorem distribute_fit (cans : List Can) (l : List Nat) (f : List Int) (r : Int)
    (k : Nat → Int) (hk : ∀ i ∈ l, (canAt cans i).spec.capacity - f.getD i 0 = k i)
    (hsort : l.Pairwise (fun i j => k j ≤ k i)) (hnd : l.Nodup)
    (hbound : r ≤ (l.map (fun i => max (k i) 0)).sum) :
    (distribute cans l f r).2 ≤ 0 := by
  induction l generalizing f r with
  | nil => simpa using hbound
  | cons idx rest ih =>
    obtain ⟨hni, hnd'⟩ := List.nodup_cons.mp hnd
    have hsrt := List.pairwise_cons.mp hsort
    by_cases h0 : r ≤ 0
    · rw [distribute_stay cans _ f r h0]; exact h0
    · have hr : 0 < r := by omega
      have hknn : 0 ≤ k idx := by
        by_contra hneg
        have hzero : ∀ x ∈ (idx :: rest).map (fun i => max (k i) 0), x = 0 := by
          intro x hx
          obtain ⟨i, hi, rfl⟩ := List.mem_map.mp hx
          rcases List.mem_cons.mp hi with rfl | hmem
          · omega
          · have := hsrt.1 i hmem; omega
        have := List.sum_eq_zero hzero
        omega
      simp only [distribute, if_neg h0]
      rw [hk idx (List.mem_cons_self _ _)]
      rcases le_or_lt r (k idx) with hle | hgt
      · rw [min_eq_right hle, distribute_stay cans _ _ _ (by omega)]
        omega
      · rw [min_eq_left (le_of_lt hgt)]
        have hkrec : ∀ i ∈ rest,
            (canAt cans i).spec.capacity -
              (modifyAt (· + k idx) idx f).getD i 0 = k i := by
          intro i hi
          have hne : i ≠ idx := fun h => hni (h ▸ hi)
          rw [getD_modifyAt_ne _ _ _ _ _ hne]
          exact hk i (List.mem_cons_of_mem _ hi)
        refine ih _ _ hkrec hsrt.2 hnd' ?_
        rw [List.map_cons, List.sum_cons] at hbound
        have hmax : max (k idx) 0 = k idx := max_eq_left hknn
        omega

/-! ### The distribution phase assembled -/

theorem canAt_mem (cans : List Can) (i : Nat) (hi : i < cans.length) :
    canAt cans i ∈ cans := by
  unfold canAt
  rw [List.getD_eq_getElem _ _ hi]
  exact List.getElem_mem hi

theorem mem_selIdxs (n : Nat) (flags : List Bool) (i : Nat) :
    i ∈ selIdxs n flags ↔ i < n ∧ flags.getD i false = true := by
  simp [selIdxs, List.mem_filter, List.mem_range]

theorem selIdxs_nodup (n : Nat) (flags : List Bool) : (selIdxs n flags).Nodup :=
  (List.nodup_range n).filter _

theorem distOrder_perm (cans : List Can) (keep : List Bool) :
    (distOrder cans keep).Perm (selIdxs cans.length keep) :=
  List.perm_insertionSort _ _

theorem mem_distOrder (cans : List Can) (keep : List Bool) (i : Nat) :
    i ∈ distOrder cans keep ↔ i < cans.length ∧ keep.getD i false = true := by
  rw [(distOrder_perm cans keep).mem_iff]
  exact mem_selIdxs _ _ _

theorem distOrder_nodup (cans : List Can) (keep : List Bool) :
    (distOrder cans keep).Nodup :=
  (distOrder_perm cans keep).nodup_iff.mpr (selIdxs_nodup _ _)

theorem distOrder_sorted (cans : List Can) (keep : List Bool) :
    (distOrder cans keep).Pairwise
      (fun i j => spareKey cans keep j ≤ spareKey cans keep i) := by
  have h := List.sorted_insertionSort (distRel (spareKey cans keep))
    (selIdxs cans.length keep)
  refine h.imp ?_
  intro a b hab
  unfold distRel at hab
  omega

theorem initialFinal_length (cans : List Can) (keep : List Bool) :
    (initialFinal cans keep).length = cans.length := by
  simp [initialFinal]

theorem initialFinal_getD (cans : List Can) (keep : List Bool) (i : Nat)
    (hi : i < cans.length) :
    (initialFinal cans keep).getD i 0 =
      if keep.getD i false then (canAt cans i).fuel else 0 := by
  unfold initialFinal
  rw [List.getD_eq_getElem _ _ (by simpa using hi)]
  simp

theorem initialFinal_getD_ge (cans : List Can) (keep : List Bool) (i : Nat)
    (hi : cans.length ≤ i) : (initialFinal cans keep).getD i 0 = 0 :=
  List.getD_eq_default _ _ (by simpa [initialFinal_length] using hi)

theorem initialFinal_sum (cans : List Can) (keep : List Bool) :
    (initialFinal cans keep).sum =
      ((selIdxs cans.length keep).map (fun i => (canAt cans i).fuel)).sum := by
  unfold initialFinal selIdxs
  rw [sum_filter_if]

theorem total_fuel_eq_range (cans : List Can) :
    ((List.range cans.length).map (fun i => (canAt cans i).fuel)).sum = total_fuel cans := by
  have := range_getD_map cans (fun c => c.fuel) dummyCan
  unfold total_fuel canAt
  convert this using 2

theorem keptFuel_le_total (cans : List Can) (keep : List Bool)
    (hf : ∀ c ∈ cans, 0 ≤ c.fuel) :
    ((selIdxs cans.length keep).map (fun i => (canAt cans i).fuel)).sum ≤
      total_fuel cans := by
  rw [← total_fuel_eq_range cans]
  unfold selIdxs
  rw [sum_filter_if]
  refine List.sum_le_sum ?_
  intro i hi
  have hmem : canAt cans i ∈ cans := canAt_mem cans i (List.mem_range.mp hi)
  have hnn := hf _ hmem
  by_cases h : keep.getD i false = true
  · rw [if_pos h]
  · rw [if_neg h]
    exact hnn

theorem remaining0_nonneg (cans : List Can) (keep : List Bool)
    (hf : ∀ c ∈ cans, 0 ≤ c.fuel) : 0 ≤ remaining0 cans keep := by
  unfold remaining0
  have := keptFuel_le_total cans keep hf
  omega

theorem distResult_len (cans : List Can) (keep : List Bool) :
    (distResult cans keep).1.length = cans.length := by
  unfold distResult
  rw [distribute_length, initialFinal_length]

theorem distResult_unkept (cans : List Can) (keep : List Bool) (i : Nat)
    (hki : ¬ keep.getD i false = true) : (distResult cans keep).1.getD i 0 = 0 := by
  unfold distResult
  rw [distribute_untouched _ _ _ _ i (fun hmem => hki ((mem_distOrder cans keep i).mp hmem).2)]
  by_cases hi : i < cans.length
  · rw [initialFinal_getD cans keep i hi, if_neg hki]
  · exact initialFinal_getD_ge cans keep i (by omega)

theorem distOrder_lt_len (cans : List Can) (keep : List Bool) :
    ∀ i ∈ distOrder cans keep, i < (initialFinal cans keep).length := by
  intro i hi
  rw [initialFinal_length]
  exact ((mem_distOrder cans keep i).mp hi).1

theorem distResult_sum (cans : List Can) (keep : List Bool) :
    (distResult cans keep).1.sum + (distResult cans keep).2 = total_fuel cans := by
  unfold distResult
  rw [distribute_sum cans _ _ _ (distOrder_lt_len cans keep), initialFinal_sum]
  unfold remaining0
  ring

theorem spareKey_agree (cans : List Can) (keep : List Bool) :
    ∀ i ∈ distOrder cans keep,
      (canAt cans i).spec.capacity - (initialFinal cans keep).getD i 0 =
        spareKey cans keep i := by
  intro i _
  rfl

theorem distResult_rem_nonneg (cans : List Can) (keep : List Bool)
    (hf : ∀ c ∈ cans, 0 ≤ c.fuel) : 0 ≤ (distResult cans keep).2 :=
  distribute_rem_nonneg _ _ _ _ (remaining0_nonneg cans keep hf)

theorem distResult_rem_nonpos (cans : List Can) (keep : List Bool)
    (hfeas : total_fuel cans ≤ subsetCap cans keep) :
    (distResult cans keep).2 ≤ 0 := by
  unfold distResult
  refine distribute_fit cans _ _ _ (spareKey cans keep) (spareKey_agree cans keep)
    (distOrder_sorted cans keep) (distOrder_nodup cans keep) ?_
  have hperm : ((distOrder cans keep).map (fun i => max (spareKey cans keep i) 0)).sum =
      ((selIdxs cans.length keep).map (fun i => max (spareKey cans keep i) 0)).sum :=
    ((distOrder_perm cans keep).map _).sum_eq
  rw [hperm]
  have hle : ((selIdxs cans.length keep).map (fun i => spareKey cans keep i)).sum ≤
      ((selIdxs cans.length keep).map (fun i => max (spareKey cans keep i) 0)).sum :=
    List.sum_le_sum (fun i _ => le_max_left _ _)
  have hsplit : ((selIdxs cans.length keep).map (fun i => spareKey cans keep i)).sum =
      subsetCap cans keep -
        ((selIdxs cans.length keep).map (fun i => (canAt cans i).fuel)).sum := by
    unfold subsetCap
    rw [← sum_map_sub]
    refine congrArg List.sum (List.map_congr_left ?_)
    intro i hi
    obtain ⟨hlt, hkeep⟩ := (mem_selIdxs cans.length keep i).mp hi
    unfold spareKey
    rw [initialFinal_getD cans keep i hlt, if_pos hkeep]
  unfold remaining0
  omega

theorem distResult_ge (cans : List Can) (keep : List Bool)
    (hrem : (distResult cans keep).2 ≤ 0) :
    ∀ i, (initialFinal cans keep).getD i 0 ≤ (distResult cans keep).1.getD i 0 := by
  intro i
  by_cases hmem : i ∈ distOrder cans keep
  · exact distribute_ge cans _ _ _ (spareKey cans keep) (spareKey_agree cans keep)
      (distOrder_sorted cans keep) (distOrder_nodup cans keep)
      (distOrder_lt_len cans keep) hrem i hmem
  · unfold distResult at *
    rw [distribute_untouched _ _ _ _ i hmem]

theorem distResult_kept_ge (cans : List Can) (keep : List Bool) (i : Nat)
    (hrem : (distResult cans keep).2 ≤ 0) (hi : i < cans.length)
    (hkeep : keep.getD i false = true) :
    (canAt cans i).fuel ≤ (distResult cans keep).1.getD i 0 := by
  have := distResult_ge cans keep hrem i
  rwa [initialFinal_getD cans keep i hi, if_pos hkeep] at this

theorem distResult_kept_le (cans : List Can) (keep : List Bool) (i : Nat)
    (hcapf : ∀ c ∈ cans, c.fuel ≤ c.spec.capacity) (hi : i < cans.length)
    (hkeep : keep.getD i false = true) :
    (distResult cans keep).1.getD i 0 ≤ (canAt cans i).spec.capacity := by
  refine distribute_le cans _ _ _ ?_ (distOrder_lt_len cans keep) i
    ((mem_distOrder cans keep i).mpr ⟨hi, hkeep⟩)
  intro j hj
  obtain ⟨hjlt, hjkeep⟩ := (mem_distOrder cans keep j).mp hj
  rw [initialFinal_getD cans keep j hjlt, if_pos hjkeep]
  exact hcapf _ (canAt_mem cans j hjlt)

/-! ### Matrix update lemmas -/

theorem matAdd_row_ne (t : Mat) (d r : Nat) (v : Int) (d' : Nat) (h : d' ≠ d) :
    (matAdd t d r v).getD d' [] = t.getD d' [] :=
  getD_modifyAt_ne _ _ _ _ _ h

theorem matAdd_wf (t : Mat) (n : Nat) (d r : Nat) (v : Int) (h : MatWF t n) :
    MatWF (matAdd t d r v) n := by
  obtain ⟨hlen, hrows⟩ := h
  refine ⟨by rw [matAdd, modifyAt_length]; exact hlen, ?_⟩
  intro d' hd'
  by_cases hdd : d' = d
  · subst hdd
    rw [matAdd, getD_modifyAt_self _ _ _ _ (by omega), modifyAt_length]
    exact hrows d' hd'
  · rw [matAdd, getD_modifyAt_ne _ _ _ _ _ hdd]
    exact hrows d' hd'

theorem matGet_matAdd (t : Mat) (d r : Nat) (v : Int) (i j : Nat) :
    matGet (matAdd t d r v) i j =
      if i = d ∧ j = r ∧ d < t.length ∧ r < (t.getD d []).length
      then matGet t i j + v else matGet t i j := by
  unfold matGet matAdd
  by_cases hid : i = d
  · subst hid
    by_cases hil : i < t.length
    · rw [getD_modifyAt_self _ _ _ _ hil]
      by_cases hjr : j = r
      · subst hjr
        by_cases hrl : j < (t.getD i []).length
        · rw [getD_modifyAt_self _ _ _ _ hrl, if_pos ⟨rfl, rfl, hil, hrl⟩]
        · rw [if_neg (by omega), List.getD_eq_default _ _ (by rw [modifyAt_length]; omega),
            List.getD_eq_default _ _ (by omega)]
      · rw [getD_modifyAt_ne _ _ _ _ _ hjr, if_neg (by omega)]
    · rw [List.getD_eq_default (modifyAt _ i t) _ (by rw [modifyAt_length]; omega),
        List.getD_eq_default t _ (by omega), if_neg (by omega)]
  · rw [getD_modifyAt_ne _ _ _ _ _ hid, if_neg (by omega)]

theorem matGet_matAdd_le (t : Mat) (d r : Nat) (v : Int) (hv : 0 ≤ v) (i j : Nat) :
    matGet t i j ≤ matGet (matAdd t d r v) i j := by
  rw [matGet_matAdd]
  by_cases h : i = d ∧ j = r ∧ d < t.length ∧ r < (t.getD d []).length
  · rw [if_pos h]; omega
  · rw [if_neg h]

theorem matGet_matAdd_col_ne (t : Mat) (d r : Nat) (v : Int) (i j : Nat) (h : j ≠ r) :
    matGet (matAdd t d r v) i j = matGet t i j := by
  rw [matGet_matAdd, if_neg (by omega)]

theorem matAdd_rowSum (t : Mat) (n d r : Nat) (v : Int) (h : MatWF t n)
    (hd : d < n) (hr : r < n) :
    ((matAdd t d r v).getD d []).sum = (t.getD d []).sum + v := by
  obtain ⟨hlen, hrows⟩ := h
  unfold matAdd
  rw [getD_modifyAt_self _ _ _ _ (by omega)]
  exact sum_modifyAt_add v r (t.getD d []) (by rw [hrows d hd]; omega)

theorem sum_map_modifyAt {α : Type} (g : α → Int) (f : α → α) :
    ∀ (l : List α) (d : Nat) (hd : d < l.length),
      ((modifyAt f d l).map g).sum = (l.map g).sum - g l[d] + g (f l[d])
  | [], d, hd => by simp at hd
  | x :: xs, 0, _ => by
    simp only [modifyAt, List.map_cons, List.sum_cons, List.getElem_cons_zero]
    ring
  | x :: xs, d + 1, hd => by
    simp only [modifyAt, List.map_cons, List.sum_cons, List.getElem_cons_succ]
    rw [sum_map_modifyAt g f xs d (by simpa using hd)]
    ring

theorem inflow_matAdd (t : Mat) (n : Nat) (hwf : MatWF t n) (d r : Nat)
    (hd : d < n) (hr : r < n) (v : Int) (j : Nat) :
    inflow (matAdd t d r v) j = inflow t j + (if j = r then v else 0) := by
  obtain ⟨hlen, hrows⟩ := hwf
  have hdl : d < t.length := by omega
  have hget : t.getD d [] = t[d] := List.getD_eq_getElem t [] hdl
  unfold inflow matAdd
  rw [sum_map_modifyAt _ _ t d hdl]
  by_cases hjr : j = r
  · subst hjr
    rw [getD_modifyAt_self _ _ _ _ (by rw [← hget, hrows d hd]; omega), if_pos rfl]
    ring
  · rw [getD_modifyAt_ne _ _ _ _ _ hjr, if_neg hjr]
    ring

theorem zeroMat_wf (n : Nat) : MatWF (zeroMat n) n := by
  refine ⟨by simp [zeroMat], ?_⟩
  intro d hd
  unfold zeroMat
  rw [List.getD_eq_getElem _ _ (by simpa using hd)]
  simp

theorem zeroMat_row (n i : Nat) : (zeroMat n).getD i [] = [] ∨
    (zeroMat n).getD i [] = List.replicate n 0 := by
  by_cases hi : i < n
  · right
    unfold zeroMat
    rw [List.getD_eq_getElem _ _ (by simpa using hi)]
    simp
  · left
    exact List.getD_eq_default _ _ (by simp [zeroMat]; omega)

theorem zeroMat_rowSum (n i : Nat) : ((zeroMat n).getD i []).sum = 0 := by
  rcases zeroMat_row n i with h | h
  · rw [h]; rfl
  · rw [h]; simp

theorem zeroMat_rowGet (n i j : Nat) : matGet (zeroMat n) i j = 0 := by
  unfold matGet
  rcases zeroMat_row n i with h | h
  · rw [h]; rfl
  · rw [h]
    by_cases hj : j < n
    · rw [List.getD_eq_getElem _ _ (by simpa using hj)]
      simp
    · exact List.getD_eq_default _ _ (by simp; omega)

theorem zeroMat_inflow (n j : Nat) : inflow (zeroMat n) j = 0 := by
  unfold inflow zeroMat
  refine List.sum_eq_zero ?_
  intro x hx
  obtain ⟨row, hrow, rfl⟩ := List.mem_map.mp hx
  have : row = List.replicate n 0 := (List.eq_of_mem_replicate hrow)
  subst this
  by_cases hj : j < n
  · rw [List.getD_eq_getElem _ _ (by simpa using hj)]
    simp
  · exact List.getD_eq_default _ _ (by simp; omega)

/-! ### Deficit- and donor-list helpers -/

theorem needAt_cons (j r : Nat) (x : Int) (l : List (Nat × Int)) :
    needAt j ((r, x) :: l) = (if r = j then x else 0) + needAt j l := by
  unfold needAt
  rw [List.filter_cons]
  by_cases h : r = j
  · simp [h]
  · simp [h]

theorem needAt_eq_zero (j : Nat) (ds : List (Nat × Int)) (h : ∀ p ∈ ds, p.2 = 0) :
    needAt j ds = 0 := by
  unfold needAt
  refine List.sum_eq_zero ?_
  intro x hx
  obtain ⟨p, hp, rfl⟩ := List.mem_map.mp hx
  exact h p (List.mem_of_mem_filter hp)

theorem needsSum_nonneg (ds : List (Nat × Int)) (h : ∀ p ∈ ds, 0 ≤ p.2) :
    0 ≤ needsSum ds := by
  unfold needsSum
  refine List.sum_nonneg ?_
  intro x hx
  obtain ⟨p, hp, rfl⟩ := List.mem_map.mp hx
  exact h p hp

theorem needsSum_eq_zero (ds : List (Nat × Int)) (h : ∀ p ∈ ds, p.2 = 0) :
    needsSum ds = 0 := by
  unfold needsSum
  refine List.sum_eq_zero ?_
  intro x hx
  obtain ⟨p, hp, rfl⟩ := List.mem_map.mp hx
  exact h p hp

theorem all_zero_of_needsSum_zero (ds : List (Nat × Int)) (hnn : ∀ p ∈ ds, 0 ≤ p.2)
    (hsum : needsSum ds = 0) : ∀ p ∈ ds, p.2 = 0 := by
  induction ds with
  | nil => intro p hp; simp at hp
  | cons q rest ih =>
    have hq := hnn q (List.mem_cons_self _ _)
    have hrest : 0 ≤ needsSum rest :=
      needsSum_nonneg rest (fun p hp => hnn p (List.mem_cons_of_mem _ hp))
    have hcons : needsSum (q :: rest) = q.2 + needsSum rest := by
      unfold needsSum
      rw [List.map_cons, List.sum_cons]
    rw [hcons] at hsum
    intro p hp
    rcases List.mem_cons.mp hp with rfl | hmem
    · omega
    · exact ih (fun p' hp' => hnn p' (List.mem_cons_of_mem _ hp')) (by omega) p hmem

theorem mem_filterMap_if (l : List Nat) (c : Nat → Prop) [DecidablePred c]
    (g : Nat → Int) (p : Nat × Int)
    (hp : p ∈ l.filterMap (fun i => if c i then some (i, g i) else none)) :
    p.1 ∈ l ∧ c p.1 ∧ p.2 = g p.1 := by
  obtain ⟨i, hi, hsome⟩ := List.mem_filterMap.mp hp
  by_cases hc : c i
  · rw [if_pos hc] at hsome
    have h1 : i = p.1 := congrArg Prod.fst (Option.some.inj hsome)
    have h2 : g i = p.2 := congrArg Prod.snd (Option.some.inj hsome)
    subst h1
    exact ⟨hi, hc, h2.symm⟩
  · rw [if_neg hc] at hsome
    exact absurd hsome (by simp)

theorem filterMap_if_fst (l : List Nat) (c : Nat → Prop) [DecidablePred c] (g : Nat → Int) :
    (l.filterMap (fun i => if c i then some (i, g i) else none)).map Prod.fst =
      l.filter (fun i => decide (c i)) := by
  induction l with
  | nil => rfl
  | cons x xs ih =>
    rw [List.filterMap_cons, List.filter_cons]
    by_cases hc : c x
    · rw [if_pos hc]
      simp only [decide_eq_true_eq, hc, if_true, List.map_cons, ih]
    · rw [if_neg hc]
      simp only [decide_eq_true_eq, hc, if_false, ih]

theorem needsSum_filterMap_if (l : List Nat) (c : Nat → Prop) [DecidablePred c]
    (g : Nat → Int) :
    needsSum (l.filterMap (fun i => if c i then some (i, g i) else none)) =
      (l.map (fun i => if c i then g i else 0)).sum := by
  induction l with
  | nil => rfl
  | cons x xs ih =>
    rw [List.filterMap_cons, List.map_cons, List.sum_cons]
    by_cases hc : c x
    · rw [if_pos hc, if_pos hc]
      unfold needsSum
      rw [List.map_cons, List.sum_cons]
      unfold needsSum at ih
      rw [ih]
    · rw [if_neg hc, if_neg hc, ih]
      omega

theorem needAt_filterMap_if (l : List Nat) (hnd : l.Nodup) (c : Nat → Prop)
    [DecidablePred c] (g : Nat → Int) (j : Nat) :
    needAt j (l.filterMap (fun i => if c i then some (i, g i) else none)) =
      if j ∈ l ∧ c j then g j else 0 := by
  induction l with
  | nil => simp [needAt]
  | cons x xs ih =>
    obtain ⟨hnx, hnd'⟩ := List.nodup_cons.mp hnd
    rw [List.filterMap_cons]
    by_cases hc : c x
    · rw [if_pos hc, needAt_cons, ih hnd']
      by_cases hxj : x = j
      · subst hxj
        rw [if_pos rfl, if_neg (by intro hand; exact hnx hand.1), if_pos ⟨List.mem_cons_self _ _, hc⟩]
        omega
      · rw [if_neg hxj]
        by_cases hj : j ∈ xs ∧ c j
        · rw [if_pos hj, if_pos ⟨List.mem_cons_of_mem _ hj.1, hj.2⟩]
          omega
        · rw [if_neg hj, if_neg (by
            intro hand
            rcases List.mem_cons.mp hand.1 with h | h
            · exact hxj h.symm
            · exact hj ⟨h, hand.2⟩)]
          omega
    · rw [if_neg hc, ih hnd']
      by_cases hj : j ∈ xs ∧ c j
      · rw [if_pos hj, if_pos ⟨List.mem_cons_of_mem _ hj.1, hj.2⟩]
      · rw [if_neg hj, if_neg (by
          intro hand
          rcases List.mem_cons.mp hand.1 with h | h
          · exact hc (h ▸ hand.2)
          · exact hj ⟨h, hand.2⟩)]

/-! ### The per-donor pouring loop -/

theorem pour_defs_fst (d : Nat) (avail : Int) (ds : List (Nat × Int)) (t : Mat) :
    (pour d avail ds t).2.2.map Prod.fst = ds.map Prod.fst := by
  induction ds generalizing avail t with
  | nil => rfl
  | cons p rest ih =>
    obtain ⟨r, need⟩ := p
    by_cases hn0 : need = 0
    · simp only [pour, if_pos hn0, List.map_cons]
      rw [ih]
    · simp only [pour, if_neg hn0]
      by_cases hg0 : min avail need = 0
      · simp only [if_pos hg0, List.map_cons]
        rw [ih]
      · simp only [if_neg hg0]
        by_cases ha0 : avail - min avail need = 0
        · simp only [if_pos ha0, List.map_cons]
        · simp only [if_neg ha0, List.map_cons]
          rw [ih]

theorem pour_wf (n : Nat) (d : Nat) (avail : Int) (ds : List (Nat × Int)) (t : Mat)
    (hwf : MatWF t n) : MatWF (pour d avail ds t).1 n := by
  induction ds generalizing avail t with
  | nil => exact hwf
  | cons p rest ih =>
    obtain ⟨r, need⟩ := p
    by_cases hn0 : need = 0
    · simp only [pour, if_pos hn0]
      exact ih _ _ hwf
    · simp only [pour, if_neg hn0]
      by_cases hg0 : min avail need = 0
      · simp only [if_pos hg0]
        exact ih _ _ hwf
      · simp only [if_neg hg0]
        by_cases ha0 : avail - min avail need = 0
        · simp only [if_pos ha0]
          exact matAdd_wf _ _ _ _ _ hwf
        · simp only [if_neg ha0]
          exact ih _ _ (matAdd_wf _ _ _ _ _ hwf)

theorem pour_needs_nonneg (d : Nat) (avail : Int) (ds : List (Nat × Int)) (t : Mat)
    (ha : 0 ≤ avail) (hds : ∀ p ∈ ds, 0 ≤ p.2) :
    ∀ p ∈ (pour d avail ds t).2.2, 0 ≤ p.2 := by
  induction ds generalizing avail t with
  | nil => intro p hp; simp [pour] at hp
  | cons q rest ih =>
    obtain ⟨r, need⟩ := q
    have hneed : 0 ≤ need := hds (r, need) (List.mem_cons_self _ _)
    have hrest : ∀ p ∈ rest, 0 ≤ p.2 := fun p hp => hds p (List.mem_cons_of_mem _ hp)
    by_cases hn0 : need = 0
    · simp only [pour, if_pos hn0]
      intro p hp
      rcases List.mem_cons.mp hp with rfl | hmem
      · omega
      · exact ih _ _ ha hrest p hmem
    · simp only [pour, if_neg hn0]
      by_cases hg0 : min avail need = 0
      · simp only [if_pos hg0]
        intro p hp
        rcases List.mem_cons.mp hp with rfl | hmem
        · exact hneed
        · exact ih _ _ ha hrest p hmem
      · simp only [if_neg hg0]
        have hgive : 0 ≤ min avail need := le_min ha hneed
        have hgn : min avail need ≤ need := min_le_right _ _
        have hgavail : min avail need ≤ avail := min_le_left _ _
        by_cases ha0 : avail - min avail need = 0
        · simp only [if_pos ha0]
          intro p hp
          rcases List.mem_cons.mp hp with rfl | hmem
          · simp only []
            omega
          · exact hrest p hmem
        · simp only [if_neg ha0]
          intro p hp
          rcases List.mem_cons.mp hp with rfl | hmem
          · simp only []
            omega
          · exact ih _ _ (by omega) hrest p hmem

theorem pour_left_bounds (d : Nat) (avail : Int) (ds : List (Nat × Int)) (t : Mat)
    (ha : 0 ≤ avail) (hds : ∀ p ∈ ds, 0 ≤ p.2) :
    0 ≤ (pour d avail ds t).2.1 ∧ (pour d avail ds t).2.1 ≤ avail := by
  induction ds generalizing avail t with
  | nil => exact ⟨ha, le_refl _⟩
  | cons q rest ih =>
    obtain ⟨r, need⟩ := q
    have hneed : 0 ≤ need := hds (r, need) (List.mem_cons_self _ _)
    have hrest : ∀ p ∈ rest, 0 ≤ p.2 := fun p hp => hds p (List.mem_cons_of_mem _ hp)
    by_cases hn0 : need = 0
    · simp only [pour, if_pos hn0]
      exact ih _ _ ha hrest
    · simp only [pour, if_neg hn0]
      by_cases hg0 : min avail need = 0
      · simp only [if_pos hg0]
        exact ih _ _ ha hrest
      · simp only [if_neg hg0]
        have hgavail : min avail need ≤ avail := min_le_left _ _
        have hgive : 0 ≤ min avail need := le_min ha hneed
        by_cases ha0 : avail - min avail need = 0
        · simp only [if_pos ha0]
          exact ⟨le_refl _, ha⟩
        · simp only [if_neg ha0]
          have := ih (avail - min avail need) (matAdd t d r (min avail need)) (by omega) hrest
          omega

theorem pour_need_sum (d : Nat) (avail : Int) (ds : List (Nat × Int)) (t : Mat) :
    needsSum (pour d avail ds t).2.2 =
      needsSum ds - (avail - (pour d avail ds t).2.1) := by
  induction ds generalizing avail t with
  | nil => simp [pour, needsSum]
  | cons q rest ih =>
    obtain ⟨r, need⟩ := q
    have hcons : ∀ (x : Int) (l : List (Nat × Int)),
        needsSum ((r, x) :: l) = x + needsSum l := by
      intro x l
      unfold needsSum
      rw [List.map_cons, List.sum_cons]
    by_cases hn0 : need = 0
    · simp only [pour, if_pos hn0]
      rw [hcons, hcons, ih]
      omega
    · simp only [pour, if_neg hn0]
      by_cases hg0 : min avail need = 0
      · simp only [if_pos hg0]
        rw [hcons, hcons, ih]
        omega
      · simp only [if_neg hg0]
        by_cases ha0 : avail - min avail need = 0
        · simp only [if_pos ha0]
          rw [hcons, hcons]
          omega
        · simp only [if_neg ha0]
          rw [hcons, hcons, ih]
          omega

theorem pour_row_ne (d : Nat) (avail : Int) (ds : List (Nat × Int)) (t : Mat)
    (d' : Nat) (h : d' ≠ d) :
    (pour d avail ds t).1.getD d' [] = t.getD d' [] := by
  induction ds generalizing avail t with
  | nil => rfl
  | cons q rest ih =>
    obtain ⟨r, need⟩ := q
    by_cases hn0 : need = 0
    · simp only [pour, if_pos hn0]
      exact ih _ _
    · simp only [pour, if_neg hn0]
      by_cases hg0 : min avail need = 0
      · simp only [if_pos hg0]
        exact ih _ _
      · simp only [if_neg hg0]
        by_cases ha0 : avail - min avail need = 0
        · simp only [if_pos ha0]
          exact matAdd_row_ne _ _ _ _ _ h
        · simp only [if_neg ha0]
          rw [ih _ _, matAdd_row_ne _ _ _ _ _ h]

theorem pour_rowSum (n : Nat) (d : Nat) (avail : Int) (ds : List (Nat × Int)) (t : Mat)
    (hwf : MatWF t n) (hd : d < n) (hds : ∀ p ∈ ds, p.1 < n) :
    ((pour d avail ds t).1.getD d []).sum =
      (t.getD d []).sum + (avail - (pour d avail ds t).2.1) := by
  induction ds generalizing avail t with
  | nil => simp [pour]
  | cons q rest ih =>
    obtain ⟨r, need⟩ := q
    have hr : r < n := hds (r, need) (List.mem_cons_self _ _)
    have hrest : ∀ p ∈ rest, p.1 < n := fun p hp => hds p (List.mem_cons_of_mem _ hp)
    by_cases hn0 : need = 0
    · simp only [pour, if_pos hn0]
      rw [ih _ _ hwf hrest]
    · simp only [pour, if_neg hn0]
      by_cases hg0 : min avail need = 0
      · simp only [if_pos hg0]
        rw [ih _ _ hwf hrest]
      · simp only [if_neg hg0]
        by_cases ha0 : avail - min avail need = 0
        · simp only [if_pos ha0]
          rw [matAdd_rowSum t n d r _ hwf hd hr]
          omega
        · simp only [if_neg ha0]
          rw [ih _ _ (matAdd_wf _ _ _ _ _ hwf) hrest,
            matAdd_rowSum t n d r _ hwf hd hr]
          omega

theorem pour_inflow (n : Nat) (d : Nat) (avail : Int) (ds : List (Nat × Int)) (t : Mat)
    (hwf : MatWF t n) (hd : d < n) (hds : ∀ p ∈ ds, p.1 < n) (j : Nat) :
    inflow (pour d avail ds t).1 j =
      inflow t j + (needAt j ds - needAt j (pour d avail ds t).2.2) := by
  induction ds generalizing avail t with
  | nil => simp [pour]
  | cons q rest ih =>
    obtain ⟨r, need⟩ := q
    have hr : r < n := hds (r, need) (List.mem_cons_self _ _)
    have hrest : ∀ p ∈ rest, p.1 < n := fun p hp => hds p (List.mem_cons_of_mem _ hp)
    by_cases hn0 : need = 0
    · simp only [pour, if_pos hn0]
      rw [ih _ _ hwf hrest, needAt_cons, needAt_cons]
      omega
    · simp only [pour, if_neg hn0]
      by_cases hg0 : min avail need = 0
      · simp only [if_pos hg0]
        rw [ih _ _ hwf hrest, needAt_cons, needAt_cons]
        omega
      · simp only [if_neg hg0]
        by_cases ha0 : avail - min avail need = 0
        · simp only [if_pos ha0]
          rw [inflow_matAdd t n hwf d r hd hr _ j, needAt_cons, needAt_cons]
          by_cases hjr : r = j
          · rw [if_pos hjr, if_pos hjr, if_pos hjr.symm]
            omega
          · rw [if_neg hjr, if_neg hjr, if_neg (fun h => hjr h.symm)]
            omega
        · simp only [if_neg ha0]
          rw [ih _ _ (matAdd_wf _ _ _ _ _ hwf) hrest,
            inflow_matAdd t n hwf d r hd hr _ j, needAt_cons, needAt_cons]
          by_cases hjr : r = j
          · rw [if_pos hjr, if_pos hjr, if_pos hjr.symm]
            omega
          · rw [if_neg hjr, if_neg hjr, if_neg (fun h => hjr h.symm)]
            omega

theorem pour_get_le (d : Nat) (avail : Int) (ds : List (Nat × Int)) (t : Mat)
    (ha : 0 ≤ avail) (hds : ∀ p ∈ ds, 0 ≤ p.2) (i j : Nat) :
    matGet t i j ≤ matGet (pour d avail ds t).1 i j := by
  induction ds generalizing avail t with
  | nil => exact le_refl _
  | cons q rest ih =>
    obtain ⟨r, need⟩ := q
    have hneed : 0 ≤ need := hds (r, need) (List.mem_cons_self _ _)
    have hrest : ∀ p ∈ rest, 0 ≤ p.2 := fun p hp => hds p (List.mem_cons_of_mem _ hp)
    have hgive : 0 ≤ min avail need := le_min ha hneed
    by_cases hn0 : need = 0
    · simp only [pour, if_pos hn0]
      exact ih _ _ ha hrest
    · simp only [pour, if_neg hn0]
      by_cases hg0 : min avail need = 0
      · simp only [if_pos hg0]
        exact ih _ _ ha hrest
      · simp only [if_neg hg0]
        have hstep := matGet_matAdd_le t d r (min avail need) hgive i j
        by_cases ha0 : avail - min avail need = 0
        · simp only [if_pos ha0]
          exact hstep
        · simp only [if_neg ha0]
          have hgavail : min avail need ≤ avail := min_le_left _ _
          exact le_trans hstep (ih _ _ (by omega) hrest)

theorem pour_col_ne (d : Nat) (avail : Int) (ds : List (Nat × Int)) (t : Mat)
    (j : Nat) (hj : ∀ p ∈ ds, p.1 ≠ j) (i : Nat) :
    matGet (pour d avail ds t).1 i j = matGet t i j := by
  induction ds generalizing avail t with
  | nil => rfl
  | cons q rest ih =>
    obtain ⟨r, need⟩ := q
    have hrj : r ≠ j := hj (r, need) (List.mem_cons_self _ _)
    have hrest : ∀ p ∈ rest, p.1 ≠ j := fun p hp => hj p (List.mem_cons_of_mem _ hp)
    by_cases hn0 : need = 0
    · simp only [pour, if_pos hn0]
      exact ih _ _ hrest
    · simp only [pour, if_neg hn0]
      by_cases hg0 : min avail need = 0
      · simp only [if_pos hg0]
        exact ih _ _ hrest
      · simp only [if_neg hg0]
        by_cases ha0 : avail - min avail need = 0
        · simp only [if_pos ha0]
          exact matGet_matAdd_col_ne _ _ _ _ _ _ (fun h => hrj h.symm)
        · simp only [if_neg ha0]
          rw [ih _ _ hrest, matGet_matAdd_col_ne _ _ _ _ _ _ (fun h => hrj h.symm)]

theorem pour_left_pos (d : Nat) (avail : Int) (ds : List (Nat × Int)) (t : Mat)
    (ha : 0 ≤ avail) (hds : ∀ p ∈ ds, 0 ≤ p.2)
    (hpos : 0 < (pour d avail ds t).2.1) :
    ∀ p ∈ (pour d avail ds t).2.2, p.2 = 0 := by
  induction ds generalizing avail t with
  | nil => intro p hp; simp [pour] at hp
  | cons q rest ih =>
    obtain ⟨r, need⟩ := q
    have hneed : 0 ≤ need := hds (r, need) (List.mem_cons_self _ _)
    have hrest : ∀ p ∈ rest, 0 ≤ p.2 := fun p hp => hds p (List.mem_cons_of_mem _ hp)
    by_cases hn0 : need = 0
    · simp only [pour, if_pos hn0] at hpos ⊢
      intro p hp
      rcases List.mem_cons.mp hp with rfl | hmem
      · exact hn0
      · exact ih _ _ ha hrest hpos p hmem
    · simp only [pour, if_neg hn0] at hpos ⊢
      by_cases hg0 : min avail need = 0
      · exfalso
        have havail : avail = 0 := by
          rcases min_cases avail need with ⟨h1, _⟩ | ⟨h1, h2⟩
          · omega
          · omega
        simp only [if_pos hg0] at hpos
        have := pour_left_bounds d avail rest t ha hrest
        omega
      · simp only [if_neg hg0] at hpos ⊢
        by_cases ha0 : avail - min avail need = 0
        · simp only [if_pos ha0] at hpos
          omega
        · simp only [if_neg ha0] at hpos ⊢
          have hlt : min avail need < avail := by
            have h1 : min avail need ≤ avail := min_le_left _ _
            omega
          have hmn : min avail need = need := by
            rcases min_cases avail need with ⟨h1, _⟩ | ⟨h1, h2⟩
            · omega
            · omega
          intro p hp
          rcases List.mem_cons.mp hp with rfl | hmem
          · simp only []
            omega
          · exact ih _ _ (by omega) hrest hpos p hmem

/-! ### The donor loop -/

theorem fst_pred_of_map_fst_eq (P : Nat → Prop) {l l' : List (Nat × Int)}
    (h : l'.map Prod.fst = l.map Prod.fst) (hl : ∀ p ∈ l, P p.1) :
    ∀ p ∈ l', P p.1 := by
  intro p hp
  have hmem : p.1 ∈ l'.map Prod.fst := List.mem_map_of_mem _ hp
  rw [h] at hmem
  obtain ⟨q, hq, hq1⟩ := List.mem_map.mp hmem
  rw [← hq1]
  exact hl q hq

theorem needsSum_cons (q : Nat × Int) (l : List (Nat × Int)) :
    needsSum (q :: l) = q.2 + needsSum l := by
  unfold needsSum
  rw [List.map_cons, List.sum_cons]

theorem runDonors_defs_fst (ds defs : List (Nat × Int)) (t : Mat) :
    (runDonors ds defs t).2.map Prod.fst = defs.map Prod.fst := by
  induction ds generalizing defs t with
  | nil => rfl
  | cons q ds' ih =>
    obtain ⟨d, a⟩ := q
    show (runDonors ds' (pour d a defs t).2.2 (pour d a defs t).1).2.map Prod.fst = _
    rw [ih, pour_defs_fst]

theorem runDonors_wf (n : Nat) (ds defs : List (Nat × Int)) (t : Mat) (hwf : MatWF t n) :
    MatWF (runDonors ds defs t).1 n := by
  induction ds generalizing defs t with
  | nil => exact hwf
  | cons q ds' ih =>
    obtain ⟨d, a⟩ := q
    exact ih _ _ (pour_wf n d a defs t hwf)

theorem runDonors_needs_nonneg (ds defs : List (Nat × Int)) (t : Mat)
    (hd : ∀ p ∈ ds, 0 ≤ p.2) (hdefs : ∀ p ∈ defs, 0 ≤ p.2) :
    ∀ p ∈ (runDonors ds defs t).2, 0 ≤ p.2 := by
  induction ds generalizing defs t with
  | nil => exact hdefs
  | cons q ds' ih =>
    obtain ⟨d, a⟩ := q
    have ha : 0 ≤ a := hd (d, a) (List.mem_cons_self _ _)
    exact ih _ _ (fun p hp => hd p (List.mem_cons_of_mem _ hp))
      (pour_needs_nonneg d a defs t ha hdefs)

theorem runDonors_row_ne (ds defs : List (Nat × Int)) (t : Mat) (i : Nat)
    (h : i ∉ ds.map Prod.fst) :
    (runDonors ds defs t).1.getD i [] = t.getD i [] := by
  induction ds generalizing defs t with
  | nil => rfl
  | cons q ds' ih =>
    obtain ⟨d, a⟩ := q
    have hne : i ≠ d := by
      intro he
      exact h (by rw [List.map_cons]; exact he ▸ List.mem_cons_self _ _)
    have h' : i ∉ ds'.map Prod.fst := fun hm =>
      h (by rw [List.map_cons]; exact List.mem_cons_of_mem _ hm)
    show (runDonors ds' (pour d a defs t).2.2 (pour d a defs t).1).1.getD i [] = _
    rw [ih _ _ h', pour_row_ne _ _ _ _ _ hne]

theorem runDonors_get_le (ds defs : List (Nat × Int)) (t : Mat)
    (hd : ∀ p ∈ ds, 0 ≤ p.2) (hdefs : ∀ p ∈ defs, 0 ≤ p.2) (i j : Nat) :
    matGet t i j ≤ matGet (runDonors ds defs t).1 i j := by
  induction ds generalizing defs t with
  | nil => exact le_refl _
  | cons q ds' ih =>
    obtain ⟨d, a⟩ := q
    have ha : 0 ≤ a := hd (d, a) (List.mem_cons_self _ _)
    refine le_trans (pour_get_le d a defs t ha hdefs i j) ?_
    exact ih _ _ (fun p hp => hd p (List.mem_cons_of_mem _ hp))
      (pour_needs_nonneg d a defs t ha hdefs)

theorem runDonors_col_ne (ds defs : List (Nat × Int)) (t : Mat) (j : Nat)
    (hdefs : ∀ p ∈ defs, p.1 ≠ j) (i : Nat) :
    matGet (runDonors ds defs t).1 i j = matGet t i j := by
  induction ds generalizing defs t with
  | nil => rfl
  | cons q ds' ih =>
    obtain ⟨d, a⟩ := q
    show matGet (runDonors ds' (pour d a defs t).2.2 (pour d a defs t).1).1 i j = _
    rw [ih _ _ (fst_pred_of_map_fst_eq (fun x => x ≠ j) (pour_defs_fst d a defs t) hdefs),
      pour_col_ne d a defs t j hdefs i]

theorem runDonors_inflow (n : Nat) (ds defs : List (Nat × Int)) (t : Mat)
    (hwf : MatWF t n) (hd : ∀ p ∈ ds, p.1 < n) (hdefs : ∀ p ∈ defs, p.1 < n) (j : Nat) :
    inflow (runDonors ds defs t).1 j =
      inflow t j + (needAt j defs - needAt j (runDonors ds defs t).2) := by
  induction ds generalizing defs t with
  | nil => show inflow t j = inflow t j + (needAt j defs - needAt j defs); ring
  | cons q ds' ih =>
    obtain ⟨d, a⟩ := q
    have hdn : d < n := hd (d, a) (List.mem_cons_self _ _)
    have hdefs' : ∀ p ∈ (pour d a defs t).2.2, p.1 < n :=
      fst_pred_of_map_fst_eq (fun x => x < n) (pour_defs_fst d a defs t) hdefs
    show inflow (runDonors ds' (pour d a defs t).2.2 (pour d a defs t).1).1 j = _
    rw [ih _ _ (pour_wf n d a defs t hwf)
        (fun p hp => hd p (List.mem_cons_of_mem _ hp)) hdefs',
      pour_inflow n d a defs t hwf hdn hdefs j]
    show _ = inflow t j +
      (needAt j defs - needAt j (runDonors ds' (pour d a defs t).2.2 (pour d a defs t).1).2)
    ring

theorem runDonors_drain (n : Nat) :
    ∀ (ds defs : List (Nat × Int)) (t : Mat),
      MatWF t n → (∀ p ∈ ds, p.1 < n) → (∀ p ∈ ds, 0 ≤ p.2) →
      (∀ p ∈ defs, p.1 < n) → (∀ p ∈ defs, 0 ≤ p.2) →
      (ds.map Prod.fst).Nodup → needsSum ds = needsSum defs →
      (∀ p ∈ (runDonors ds defs t).2, p.2 = 0) ∧
      (∀ p ∈ ds, ((runDonors ds defs t).1.getD p.1 []).sum = (t.getD p.1 []).sum + p.2)
  | [], defs, t, hwf, _, _, hdefs1, hdefs2, _, hsum => by
    constructor
    · intro p hp
      refine all_zero_of_needsSum_zero defs hdefs2 ?_ p hp
      have hz : needsSum ([] : List (Nat × Int)) = 0 := rfl
      omega
    · intro p hp
      simp at hp
  | (d, a) :: ds', defs, t, hwf, hd1, hd2, hdefs1, hdefs2, hnd, hsum => by
    have ha : 0 ≤ a := hd2 (d, a) (List.mem_cons_self _ _)
    have hdn : d < n := hd1 (d, a) (List.mem_cons_self _ _)
    have hd1' : ∀ p ∈ ds', p.1 < n := fun p hp => hd1 p (List.mem_cons_of_mem _ hp)
    have hd2' : ∀ p ∈ ds', 0 ≤ p.2 := fun p hp => hd2 p (List.mem_cons_of_mem _ hp)
    have hndmap : (d :: ds'.map Prod.fst).Nodup := by
      have hx := hnd
      rw [List.map_cons] at hx
      exact hx
    obtain ⟨hndd, hnd'⟩ := List.nodup_cons.mp hndmap
    have hsumcons : needsSum ((d, a) :: ds') = a + needsSum ds' := needsSum_cons _ _
    have hresnn : ∀ p ∈ (pour d a defs t).2.2, 0 ≤ p.2 :=
      pour_needs_nonneg d a defs t ha hdefs2
    have hbounds := pour_left_bounds d a defs t ha hdefs2
    have hps := pour_need_sum d a defs t
    have hnds' : 0 ≤ needsSum ds' := needsSum_nonneg _ hd2'
    have hleft : (pour d a defs t).2.1 = 0 := by
      by_contra hne
      have hpos : 0 < (pour d a defs t).2.1 := by omega
      have hall := pour_left_pos d a defs t ha hdefs2 hpos
      have hz : needsSum (pour d a defs t).2.2 = 0 := needsSum_eq_zero _ hall
      omega
    have hsum' : needsSum ds' = needsSum (pour d a defs t).2.2 := by omega
    have hdefs1' : ∀ p ∈ (pour d a defs t).2.2, p.1 < n :=
      fst_pred_of_map_fst_eq (fun x => x < n) (pour_defs_fst d a defs t) hdefs1
    have hih := runDonors_drain n ds' (pour d a defs t).2.2 (pour d a defs t).1
      (pour_wf n d a defs t hwf) hd1' hd2' hdefs1' hresnn hnd' hsum'
    constructor
    · exact hih.1
    · intro p hp
      rcases List.mem_cons.mp hp with rfl | hmem
      · show ((runDonors ds' (pour d a defs t).2.2 (pour d a defs t).1).1.getD d []).sum =
          (t.getD d []).sum + a
        rw [runDonors_row_ne ds' _ _ d hndd]
        have hrs := pour_rowSum n d a defs t hwf hdn hdefs1
        omega
      · have hne : p.1 ≠ d := by
          intro he
          exact hndd (he ▸ List.mem_map_of_mem Prod.fst hmem)
        have hrow := hih.2 p hmem
        rw [pour_row_ne d a defs t p.1 hne] at hrow
        exact hrow

/-! ### Inverting a successful `solve_greedy` run -/

theorem solve_greedy_ok_inv (cans : List Can) (p : Plan)
    (h : solve_greedy cans = .ok p) :
    (total_fuel cans = 0 ∧ p = trivialPlan cans.length) ∨
    (total_fuel cans ≠ 0 ∧ ∃ keep,
      selectBest cans (total_fuel cans) = some keep ∧
      (distResult cans keep).2 ≤ 0 ∧
      (∀ q ∈ (transferResult cans keep (distResult cans keep).1).2, q.2 ≤ 0) ∧
      p = { keep := keep, final_fuel := (distResult cans keep).1,
            transfers := (transferResult cans keep (distResult cans keep).1).1 }) := by
  simp only [solve_greedy] at h
  by_cases hT : total_fuel cans = 0
  · rw [if_pos hT] at h
    left
    exact ⟨hT, (Except.ok.inj h).symm⟩
  · rw [if_neg hT] at h
    right
    refine ⟨hT, ?_⟩
    rcases hsel : selectBest cans (total_fuel cans) with _ | keep
    · rw [hsel] at h
      exact absurd h (by simp)
    · rw [hsel] at h
      dsimp only at h
      by_cases hrem : 0 < (distResult cans keep).2
      · rw [if_pos hrem] at h
        exact absurd h (by simp)
      · rw [if_neg hrem] at h
        by_cases hany : (transferResult cans keep
            (distResult cans keep).1).2.any (fun q => decide (0 < q.2)) = true
        · rw [if_pos hany] at h
          exact absurd h (by simp)
        · rw [if_neg hany] at h
          refine ⟨keep, rfl, by omega, ?_, (Except.ok.inj h).symm⟩
          intro q hq
          by_contra hq2
          exact hany (List.any_eq_true.mpr ⟨q, hq, by simp only [decide_eq_true_eq]; omega⟩)

/-! ### Facts about the donor and deficit lists -/

theorem deficitsOf_eq (cans : List Can) (final : List Int) :
    deficitsOf cans final = (List.range cans.length).filterMap
      (fun i => if 0 < final.getD i 0 - (canAt cans i).fuel
                then some (i, final.getD i 0 - (canAt cans i).fuel) else none) := rfl

theorem deficits_mem (cans : List Can) (final : List Int) (q : Nat × Int)
    (hq : q ∈ deficitsOf cans final) :
    q.1 < cans.length ∧ 0 < final.getD q.1 0 - (canAt cans q.1).fuel ∧
      q.2 = final.getD q.1 0 - (canAt cans q.1).fuel := by
  rw [deficitsOf_eq] at hq
  have := mem_filterMap_if _ _ _ _ hq
  exact ⟨List.mem_range.mp this.1, this.2.1, this.2.2⟩

theorem filterMap_fst_sublist (l : List Nat) (f : Nat → Option (Nat × Int))
    (hf : ∀ i q, f i = some q → q.1 = i) :
    ((l.filterMap f).map Prod.fst).Sublist l := by
  induction l with
  | nil => simp
  | cons x xs ih =>
    rw [List.filterMap_cons]
    cases hfx : f x with
    | none => exact ih.cons x
    | some q =>
      rw [List.map_cons, hf x q hfx]
      exact ih.cons₂ x

theorem deficits_fst_nodup (cans : List Can) (final : List Int) :
    ((deficitsOf cans final).map Prod.fst).Nodup := by
  refine List.Sublist.nodup (filterMap_fst_sublist _ _ ?_) (List.nodup_range _)
  intro i q hq
  unfold deficitsOf at hq  -- not needed; generic
  by_cases hc : 0 < final.getD i 0 - (canAt cans i).fuel
  · rw [if_pos hc] at hq
    exact (congrArg Prod.fst (Option.some.inj hq)).symm
  · rw [if_neg hc] at hq
    exact absurd hq (by simp)

theorem donorsOf_mem (cans : List Can) (keep : List Bool) (final : List Int)
    (q : Nat × Int) (hq : q ∈ donorsOf cans keep final) :
    q.1 < cans.length ∧
      ((keep.getD q.1 false = true ∧ final.getD q.1 0 < (canAt cans q.1).fuel ∧
          q.2 = (canAt cans q.1).fuel - final.getD q.1 0) ∨
       (keep.getD q.1 false = false ∧ q.2 = (canAt cans q.1).fuel)) := by
  unfold donorsOf at hq
  obtain ⟨i, hi, hsome⟩ := List.mem_filterMap.mp hq
  have hilt := List.mem_range.mp hi
  by_cases hk : keep.getD i false = true
  · rw [if_pos hk] at hsome
    by_cases ht : final.getD i 0 < (canAt cans i).fuel
    · rw [if_pos ht] at hsome
      have h1 : i = q.1 := congrArg Prod.fst (Option.some.inj hsome)
      have h2 : (canAt cans i).fuel - final.getD i 0 = q.2 :=
        congrArg Prod.snd (Option.some.inj hsome)
      subst h1
      exact ⟨hilt, Or.inl ⟨hk, ht, h2.symm⟩⟩
    · rw [if_neg ht] at hsome
      exact absurd hsome (by simp)
  · rw [if_neg hk] at hsome
    have h1 : i = q.1 := congrArg Prod.fst (Option.some.inj hsome)
    have h2 : (canAt cans i).fuel = q.2 := congrArg Prod.snd (Option.some.inj hsome)
    subst h1
    have hk' : keep.getD q.1 false = false := by simpa using hk
    exact ⟨hilt, Or.inr ⟨hk', h2.symm⟩⟩

theorem donorsOf_fst_nodup (cans : List Can) (keep : List Bool) (final : List Int) :
    ((donorsOf cans keep final).map Prod.fst).Nodup := by
  refine List.Sublist.nodup (filterMap_fst_sublist _ _ ?_) (List.nodup_range _)
  intro i q hq
  by_cases hk : keep.getD i false = true
  · rw [if_pos hk] at hq
    by_cases ht : final.getD i 0 < (canAt cans i).fuel
    · rw [if_pos ht] at hq
      exact (congrArg Prod.fst (Option.some.inj hq)).symm
    · rw [if_neg ht] at hq
      exact absurd hq (by simp)
  · rw [if_neg hk] at hq
    exact (congrArg Prod.fst (Option.some.inj hq)).symm

theorem donorsOf_of_ge (cans : List Can) (keep : List Bool) (final : List Int)
    (hge : ∀ i, i < cans.length → keep.getD i false = true →
      ¬ final.getD i 0 < (canAt cans i).fuel) :
    donorsOf cans keep final = (List.range cans.length).filterMap
      (fun i => if keep.getD i false = false
                then some (i, (canAt cans i).fuel) else none) := by
  unfold donorsOf
  refine List.filterMap_congr ?_
  intro i hi
  have hilt := List.mem_range.mp hi
  by_cases hk : keep.getD i false = true
  · rw [if_pos hk, if_neg (hge i hilt hk), if_neg (by rw [hk]; simp)]
  · have hk' : keep.getD i false = false := by simpa using hk
    rw [if_neg hk, if_pos hk']

/-! ### Facts available after a successful non-trivial run -/

theorem getD_replicate {α : Type} (n i : Nat) (x : α) :
    (List.replicate n x).getD i x = x := by
  by_cases h : i < n
  · rw [List.getD_eq_getElem _ _ (by simpa using h)]
    simp
  · exact List.getD_eq_default _ _ (by simpa using Nat.le_of_not_lt h)

theorem sum_zero_all_zero (l : List Int) (hnn : ∀ x ∈ l, 0 ≤ x) (hs : l.sum = 0) :
    ∀ x ∈ l, x = 0 := by
  induction l with
  | nil => intro x hx; simp at hx
  | cons y ys ih =>
    rw [List.sum_cons] at hs
    have hy := hnn y (List.mem_cons_self _ _)
    have hys : 0 ≤ ys.sum :=
      List.sum_nonneg (fun x hx => hnn x (List.mem_cons_of_mem _ hx))
    intro x hx
    rcases List.mem_cons.mp hx with rfl | hmem
    · omega
    · exact ih (fun x' hx' => hnn x' (List.mem_cons_of_mem _ hx')) (by omega) x hmem

theorem sum_range_getD (l : List Int) :
    ((List.range l.length).map (fun i => l.getD i 0)).sum = l.sum := by
  have := range_getD_map l (fun x => x) 0
  simpa using this

theorem donorsOf_snd_nonneg (cans : List Can) (keep : List Bool) (final : List Int)
    (hf : ∀ c ∈ cans, 0 ≤ c.fuel) :
    ∀ q ∈ donorsOf cans keep final, 0 ≤ q.2 := by
  intro q hq
  obtain ⟨hlt, hcase⟩ := donorsOf_mem cans keep final q hq
  have hfq := hf _ (canAt_mem cans q.1 hlt)
  rcases hcase with ⟨_, hlt2, heq⟩ | ⟨_, heq⟩ <;> omega

theorem donorsOf_fst_lt (cans : List Can) (keep : List Bool) (final : List Int) :
    ∀ q ∈ donorsOf cans keep final, q.1 < cans.length :=
  fun q hq => (donorsOf_mem cans keep final q hq).1

theorem deficits_snd_nonneg (cans : List Can) (final : List Int) :
    ∀ q ∈ deficitsOf cans final, 0 ≤ q.2 := by
  intro q hq
  have := deficits_mem cans final q hq
  omega

theorem deficits_fst_lt (cans : List Can) (final : List Int) :
    ∀ q ∈ deficitsOf cans final, q.1 < cans.length :=
  fun q hq => (deficits_mem cans final q hq).1

theorem solve_ok_main (cans : List Can) (p : Plan) (hf : ∀ c ∈ cans, 0 ≤ c.fuel)
    (hT : total_fuel cans ≠ 0) (hok : solve_greedy cans = .ok p) :
    ∃ keep, selectBest cans (total_fuel cans) = some keep ∧
      (distResult cans keep).2 = 0 ∧
      (∀ q ∈ (transferResult cans keep (distResult cans keep).1).2, q.2 = 0) ∧
      p = { keep := keep, final_fuel := (distResult cans keep).1,
            transfers := (transferResult cans keep (distResult cans keep).1).1 } := by
  rcases solve_greedy_ok_inv cans p hok with ⟨hT0, _⟩ | ⟨_, keep, hsel, hrem, hdefs, hp⟩
  · exact absurd hT0 hT
  · refine ⟨keep, hsel, ?_, ?_, hp⟩
    · have := distResult_rem_nonneg cans keep hf
      omega
    · intro q hq
      have hnn : 0 ≤ q.2 := by
        refine runDonors_needs_nonneg _ _ _ ?_ ?_ q hq
        · exact donorsOf_snd_nonneg cans keep _ hf
        · exact deficits_snd_nonneg cans _
      have := hdefs q hq
      omega

theorem distResult_kept_not_lt (cans : List Can) (keep : List Bool)
    (hrem : (distResult cans keep).2 = 0) :
    ∀ i, i < cans.length → keep.getD i false = true →
      ¬ (distResult cans keep).1.getD i 0 < (canAt cans i).fuel := by
  intro i hi hk
  have := distResult_kept_ge cans keep i (by omega) hi hk
  omega

theorem needs_eq_avails (cans : List Can) (keep : List Bool)
    (hf : ∀ c ∈ cans, 0 ≤ c.fuel)
    (hrem : (distResult cans keep).2 = 0) :
    needsSum (donorsOf cans keep (distResult cans keep).1) =
      needsSum (deficitsOf cans (distResult cans keep).1) := by
  have hge := distResult_kept_not_lt cans keep hrem
  rw [donorsOf_of_ge cans keep (distResult cans keep).1 hge, needsSum_filterMap_if,
    deficitsOf_eq, needsSum_filterMap_if]
  have hLpt : ∀ i ∈ List.range cans.length,
      (if keep.getD i false = false then (canAt cans i).fuel else 0) =
        (canAt cans i).fuel -
          (if keep.getD i false = true then (canAt cans i).fuel else 0) := by
    intro i _
    cases hk : keep.getD i false
    · rw [if_pos rfl, if_neg (by simp)]
      omega
    · rw [if_neg (by simp), if_pos rfl]
      omega
  have hRpt : ∀ i ∈ List.range cans.length,
      (if 0 < (distResult cans keep).1.getD i 0 - (canAt cans i).fuel
       then (distResult cans keep).1.getD i 0 - (canAt cans i).fuel else 0) =
        (distResult cans keep).1.getD i 0 -
          (if keep.getD i false = true then (canAt cans i).fuel else 0) := by
    intro i hi
    have hilt := List.mem_range.mp hi
    have hfnn := hf _ (canAt_mem cans i hilt)
    cases hk : keep.getD i false
    · have hfin0 : (distResult cans keep).1.getD i 0 = 0 :=
        distResult_unkept cans keep i (by rw [hk]; simp)
      rw [hfin0, if_neg (by omega), if_neg (by simp)]
      omega
    · have hgef : (canAt cans i).fuel ≤ (distResult cans keep).1.getD i 0 :=
        distResult_kept_ge cans keep i (by omega) hilt hk
      rw [if_pos (rfl : (true : Bool) = true)]
      by_cases hpos : 0 < (distResult cans keep).1.getD i 0 - (canAt cans i).fuel
      · rw [if_pos hpos]
      · rw [if_neg hpos]
        omega
  rw [List.map_congr_left hLpt, List.map_congr_left hRpt, sum_map_sub, sum_map_sub]
  have h1 : ((List.range cans.length).map (fun i => (canAt cans i).fuel)).sum =
      total_fuel cans := total_fuel_eq_range cans
  have h2 : ((List.range cans.length).map
      (fun i => (distResult cans keep).1.getD i 0)).sum = (distResult cans keep).1.sum := by
    have hx := sum_range_getD (distResult cans keep).1
    rw [distResult_len cans keep] at hx
    exact hx
  have h3 := distResult_sum cans keep
  omega

theorem transferResult_drain (cans : List Can) (keep : List Bool)
    (hf : ∀ c ∈ cans, 0 ≤ c.fuel)
    (hrem : (distResult cans keep).2 = 0) :
    (∀ q ∈ (transferResult cans keep (distResult cans keep).1).2, q.2 = 0) ∧
    (∀ q ∈ donorsOf cans keep (distResult cans keep).1,
      (((transferResult cans keep (distResult cans keep).1).1).getD q.1 []).sum = q.2) := by
  have hdr := runDonors_drain cans.length
    (donorsOf cans keep (distResult cans keep).1)
    (deficitsOf cans (distResult cans keep).1)
    (zeroMat cans.length) (zeroMat_wf _)
    (donorsOf_fst_lt cans keep _) (donorsOf_snd_nonneg cans keep _ hf)
    (deficits_fst_lt cans _) (deficits_snd_nonneg cans _)
    (donorsOf_fst_nodup cans keep _)
    (needs_eq_avails cans keep hf hrem)
  refine ⟨hdr.1, ?_⟩
  intro q hq
  have := hdr.2 q hq
  rw [zeroMat_rowSum] at this
  simpa using this

theorem solve_plan_ok_greedy (cans : List Can) (p : Plan)
    (hok : solve_plan cans = .ok p) : solve_greedy cans = .ok p := by
  unfold solve_plan at hok
  by_cases he : cans.isEmpty = true
  · rw [if_pos he] at hok
    exact absurd hok (by simp)
  · rw [if_neg he] at hok
    exact hok

theorem transferResult_kept_row (cans : List Can) (keep : List Bool)
    (hrem : (distResult cans keep).2 = 0) (i : Nat)
    (hk : keep.getD i false = true) :
    (transferResult cans keep (distResult cans keep).1).1.getD i [] =
      (zeroMat cans.length).getD i [] := by
  refine runDonors_row_ne _ _ _ i ?_
  intro hmem
  obtain ⟨q, hq, hq1⟩ := List.mem_map.mp hmem
  obtain ⟨hlt, hcase⟩ := donorsOf_mem cans keep _ q hq
  rcases hcase with ⟨hk2, hlt2, _⟩ | ⟨hk2, _⟩
  · exact distResult_kept_not_lt cans keep hrem q.1 hlt hk2 hlt2
  · rw [hq1, hk] at hk2
    exact absurd hk2 (by simp)

theorem donor_mem_unkept (cans : List Can) (keep : List Bool)
    (hrem : (distResult cans keep).2 = 0) (i : Nat) (hi : i < cans.length)
    (hk : keep.getD i false = false) :
    (i, (canAt cans i).fuel) ∈ donorsOf cans keep (distResult cans keep).1 := by
  rw [donorsOf_of_ge cans keep (distResult cans keep).1
    (distResult_kept_not_lt cans keep hrem)]
  exact List.mem_filterMap.mpr ⟨i, List.mem_range.mpr hi, by rw [if_pos hk]⟩

theorem needAt_deficits (cans : List Can) (final : List Int) (j : Nat) :
    needAt j (deficitsOf cans final) =
      if j ∈ List.range cans.length ∧ 0 < final.getD j 0 - (canAt cans j).fuel
      then final.getD j 0 - (canAt cans j).fuel else 0 := by
  rw [deficitsOf_eq]
  exact needAt_filterMap_if _ (List.nodup_range _) _ _ j

theorem transferResult_inflow_ok (cans : List Can) (keep : List Bool)
    (hf : ∀ c ∈ cans, 0 ≤ c.fuel) (hrem : (distResult cans keep).2 = 0) (j : Nat) :
    inflow (transferResult cans keep (distResult cans keep).1).1 j =
      needAt j (deficitsOf cans (distResult cans keep).1) := by
  have hstep := runDonors_inflow cans.length
    (donorsOf cans keep (distResult cans keep).1)
    (deficitsOf cans (distResult cans keep).1)
    (zeroMat cans.length) (zeroMat_wf _)
    (donorsOf_fst_lt cans keep _) (deficits_fst_lt cans _) j
  rw [zeroMat_inflow] at hstep
  have heq : needAt j (runDonors (donorsOf cans keep (distResult cans keep).1)
      (deficitsOf cans (distResult cans keep).1) (zeroMat cans.length)).2 = 0 :=
    needAt_eq_zero j _ (transferResult_drain cans keep hf hrem).1
  rw [heq] at hstep
  have hout : inflow (transferResult cans keep (distResult cans keep).1).1 j =
      inflow (runDonors (donorsOf cans keep (distResult cans keep).1)
        (deficitsOf cans (distResult cans keep).1) (zeroMat cans.length)).1 j := rfl
  rw [hout]
  omega

/-! ### Claim C2: global fuel conservation -/

/-- C2: whenever `solve_plan` returns a `Plan`, the final fuel levels sum to
exactly the total fuel of the input canister list. -/
theorem plan_fuel_conservation (cans : List Can) (p : Plan)
    (hf : ∀ c ∈ cans, 0 ≤ c.fuel) (hok : solve_plan cans = .ok p) :
    p.final_fuel.sum = total_fuel cans := by
  have hok' := solve_plan_ok_greedy cans p hok
  by_cases hT : total_fuel cans = 0
  · rcases solve_greedy_ok_inv cans p hok' with ⟨_, hp⟩ | ⟨hT', _⟩
    · subst hp
      unfold trivialPlan
      dsimp only
      rw [hT]
      simp
    · exact absurd hT hT'
  · obtain ⟨keep, hsel, hrem, hzero, hp⟩ := solve_ok_main cans p hf hT hok'
    subst hp
    dsimp only
    have h1 := distResult_sum cans keep
    omega

/-- Concrete instance of fuel conservation: the spec's Scenario A. -/
theorem plan_fuel_conservation_witness :
    ({ keep := [true, false], final_fuel := [45, 0],
       transfers := [[0, 0], [5, 0]] } : Plan).final_fuel.sum =
      total_fuel [{ id := "", spec := MSR_110, gross := 141, fuel := 40 },
                  { id := "", spec := MSR_227, gross := 152, fuel := 5 }] :=
  plan_fuel_conservation _ _ (by decide) (by decide)

/-! ### Claim C4: capacity respect -/

/-- C4 (amended): for canister lists whose fuel loads are physically
consistent (`0 ≤ fuel ≤ capacity` per can), every returned plan zeroes
dropped canisters and keeps every kept canister's final fuel within
`[0, capacity]`. -/
theorem plan_capacity_respect (cans : List Can) (p : Plan)
    (hf : ∀ c ∈ cans, 0 ≤ c.fuel) (hfc : ∀ c ∈ cans, c.fuel ≤ c.spec.capacity)
    (hok : solve_plan cans = .ok p) :
    ∀ i, i < cans.length →
      (p.keep.getD i false = false → p.final_fuel.getD i 0 = 0) ∧
      (p.keep.getD i false = true →
        0 ≤ p.final_fuel.getD i 0 ∧
        p.final_fuel.getD i 0 ≤ (canAt cans i).spec.capacity) := by
  have hok' := solve_plan_ok_greedy cans p hok
  by_cases hT : total_fuel cans = 0
  · rcases solve_greedy_ok_inv cans p hok' with ⟨_, hp⟩ | ⟨hT', _⟩
    · subst hp
      intro i hi
      unfold trivialPlan
      dsimp only
      constructor
      · intro _
        exact getD_replicate _ _ _
      · intro hkt
        rw [getD_replicate] at hkt
        exact absurd hkt (by simp)
    · exact absurd hT hT'
  · obtain ⟨keep, hsel, hrem, hzero, hp⟩ := solve_ok_main cans p hf hT hok'
    subst hp
    dsimp only
    intro i hi
    constructor
    · intro hkf
      exact distResult_unkept cans keep i (by rw [hkf]; simp)
    · intro hkt
      have h1 := distResult_kept_ge cans keep i (by omega) hi hkt
      have h2 := distResult_kept_le cans keep i hfc hi hkt
      have h3 := hf _ (canAt_mem cans i hi)
      exact ⟨by omega, h2⟩

/-- C4 counterexample: the builder accepts an over-full `MSR_110` can
(gross 300 g, fuel 199 g > capacity 110 g); on `[that can, an empty
MSR_110]` the plan keeps index 0 with `finalFuel 199` above its
capacity, so capacity respect fails as stated. -/
theorem plan_capacity_respect_cex :
    (∀ c ∈ ([{ id := "", spec := MSR_110, gross := 300, fuel := 199 },
             { id := "", spec := MSR_110, gross := 101, fuel := 0 }] : List Can), 0 ≤ c.fuel) ∧
    solve_plan [{ id := "", spec := MSR_110, gross := 300, fuel := 199 },
                { id := "", spec := MSR_110, gross := 101, fuel := 0 }] =
      .ok { keep := [true, true], final_fuel := [199, 0],
            transfers := [[0, 0], [0, 0]] } ∧
    ({ keep := [true, true], final_fuel := [199, 0],
       transfers := [[0, 0], [0, 0]] } : Plan).keep.getD 0 false = true ∧
    (canAt [{ id := "", spec := MSR_110, gross := 300, fuel := 199 },
            { id := "", spec := MSR_110, gross := 101, fuel := 0 }] 0).spec.capacity <
      ({ keep := [true, true], final_fuel := [199, 0],
         transfers := [[0, 0], [0, 0]] } : Plan).final_fuel.getD 0 0 := by
  decide

/-- Concrete instance of the amended capacity-respect theorem. -/
theorem plan_capacity_respect_witness :
    (({ keep := [true, false], final_fuel := [45, 0],
        transfers := [[0, 0], [5, 0]] } : Plan).keep.getD 0 false = false →
      ({ keep := [true, false], final_fuel := [45, 0],
         transfers := [[0, 0], [5, 0]] } : Plan).final_fuel.getD 0 0 = 0) ∧
    (({ keep := [true, false], final_fuel := [45, 0],
        transfers := [[0, 0], [5, 0]] } : Plan).keep.getD 0 false = true →
      0 ≤ ({ keep := [true, false], final_fuel := [45, 0],
             transfers := [[0, 0], [5, 0]] } : Plan).final_fuel.getD 0 0 ∧
      ({ keep := [true, false], final_fuel := [45, 0],
         transfers := [[0, 0], [5, 0]] } : Plan).final_fuel.getD 0 0 ≤
        (canAt [{ id := "", spec := MSR_110, gross := 141, fuel := 40 },
                { id := "", spec := MSR_227, gross := 152, fuel := 5 }] 0).spec.capacity) :=
  plan_capacity_respect _ _ (by decide) (by decide) (by decide) 0 (by decide)

/-! ### Claim C10: kept canisters never donate -/

/-- C10: in every plan `solve_plan` returns, a kept canister's final fuel
is at least its starting fuel and its whole row of the transfer matrix
is zero — only dropped canisters donate. -/
theorem plan_kept_no_donation (cans : List Can) (p : Plan)
    (hf : ∀ c ∈ cans, 0 ≤ c.fuel) (hok : solve_plan cans = .ok p) :
    ∀ i, i < cans.length → p.keep.getD i false = true →
      (canAt cans i).fuel ≤ p.final_fuel.getD i 0 ∧
      ∀ r, matGet p.transfers i r = 0 := by
  have hok' := solve_plan_ok_greedy cans p hok
  by_cases hT : total_fuel cans = 0
  · rcases solve_greedy_ok_inv cans p hok' with ⟨_, hp⟩ | ⟨hT', _⟩
    · subst hp
      intro i hi hk
      unfold trivialPlan at hk
      dsimp only at hk
      rw [getD_replicate] at hk
      exact absurd hk (by simp)
    · exact absurd hT hT'
  · obtain ⟨keep, hsel, hrem, hzero, hp⟩ := solve_ok_main cans p hf hT hok'
    subst hp
    dsimp only
    intro i hi hk
    refine ⟨distResult_kept_ge cans keep i (by omega) hi hk, ?_⟩
    intro r
    unfold matGet
    rw [transferResult_kept_row cans keep hrem i hk]
    exact zeroMat_rowGet cans.length i r

/-- Concrete instance of the no-kept-donation theorem at Scenario A. -/
theorem plan_kept_no_donation_witness :
    (canAt [{ id := "", spec := MSR_110, gross := 141, fuel := 40 },
            { id := "", spec := MSR_227, gross := 152, fuel := 5 }] 0).fuel ≤
      ({ keep := [true, false], final_fuel := [45, 0],
         transfers := [[0, 0], [5, 0]] } : Plan).final_fuel.getD 0 0 ∧
    ∀ r, matGet ({ keep := [true, false], final_fuel := [45, 0],
                   transfers := [[0, 0], [5, 0]] } : Plan).transfers 0 r = 0 :=
  plan_kept_no_donation _ _ (by decide) (by decide) 0 (by decide) (by decide)

/-! ### Claim C5: no over-donation, non-negative transfers, zero diagonal -/

/-- C5: in every returned plan, canister `i` donates at most its starting
fuel, every transfer entry in its row is non-negative, and the diagonal
entry `transfer[i][i]` is zero. -/
theorem plan_no_overdonation (cans : List Can) (p : Plan)
    (hf : ∀ c ∈ cans, 0 ≤ c.fuel) (hok : solve_plan cans = .ok p) :
    ∀ i, i < cans.length →
      outflow p.transfers i ≤ (canAt cans i).fuel ∧
      (∀ j, 0 ≤ matGet p.transfers i j) ∧
      matGet p.transfers i i = 0 := by
  have hok' := solve_plan_ok_greedy cans p hok
  by_cases hT : total_fuel cans = 0
  · rcases solve_greedy_ok_inv cans p hok' with ⟨_, hp⟩ | ⟨hT', _⟩
    · subst hp
      intro i hi
      unfold trivialPlan
      dsimp only
      have hfnn := hf _ (canAt_mem cans i hi)
      refine ⟨?_, fun j => ?_, ?_⟩
      · show ((zeroMat cans.length).getD i []).sum ≤ (canAt cans i).fuel
        rw [zeroMat_rowSum]
        exact hfnn
      · show 0 ≤ matGet (zeroMat cans.length) i j
        rw [zeroMat_rowGet]
      · show matGet (zeroMat cans.length) i i = 0
        rw [zeroMat_rowGet]
    · exact absurd hT hT'
  · obtain ⟨keep, hsel, hrem, hzero, hp⟩ := solve_ok_main cans p hf hT hok'
    subst hp
    dsimp only
    intro i hi
    have hfnn := hf _ (canAt_mem cans i hi)
    have hmono : ∀ j, 0 ≤ matGet
        (transferResult cans keep (distResult cans keep).1).1 i j := by
      intro j
      have := runDonors_get_le (donorsOf cans keep (distResult cans keep).1)
        (deficitsOf cans (distResult cans keep).1) (zeroMat cans.length)
        (donorsOf_snd_nonneg cans keep _ hf) (deficits_snd_nonneg cans _) i j
      rw [zeroMat_rowGet] at this
      exact this
    refine ⟨?_, hmono, ?_⟩
    · by_cases hk : keep.getD i false = true
      · unfold outflow
        rw [transferResult_kept_row cans keep hrem i hk, zeroMat_rowSum]
        exact hfnn
      · have hk' : keep.getD i false = false := by simpa using hk
        have hdon := donor_mem_unkept cans keep hrem i hi hk'
        have := (transferResult_drain cans keep hf hrem).2 _ hdon
        unfold outflow
        rw [this]
    · by_cases hk : keep.getD i false = true
      · unfold matGet
        rw [transferResult_kept_row cans keep hrem i hk]
        exact zeroMat_rowGet cans.length i i
      · have hk' : keep.getD i false = false := by simpa using hk
        have hfin0 : (distResult cans keep).1.getD i 0 = 0 :=
          distResult_unkept cans keep i (by rw [hk']; simp)
        have hnotrec : ∀ q ∈ deficitsOf cans (distResult cans keep).1, q.1 ≠ i := by
          intro q hq he
          obtain ⟨hlt, hpos, _⟩ := deficits_mem cans _ q hq
          rw [he, hfin0] at hpos
          omega
        have := runDonors_col_ne (donorsOf cans keep (distResult cans keep).1)
          (deficitsOf cans (distResult cans keep).1) (zeroMat cans.length) i hnotrec i
        rw [zeroMat_rowGet] at this
        exact this

/-- Concrete instance of the no-over-donation theorem at Scenario A,
index 1 (the dropped donor). -/
theorem plan_no_overdonation_witness :
    outflow ({ keep := [true, false], final_fuel := [45, 0],
               transfers := [[0, 0], [5, 0]] } : Plan).transfers 1 ≤
      (canAt [{ id := "", spec := MSR_110, gross := 141, fuel := 40 },
              { id := "", spec := MSR_227, gross := 152, fuel := 5 }] 1).fuel ∧
    (∀ j, 0 ≤ matGet ({ keep := [true, false], final_fuel := [45, 0],
                        transfers := [[0, 0], [5, 0]] } : Plan).transfers 1 j) ∧
    matGet ({ keep := [true, false], final_fuel := [45, 0],
              transfers := [[0, 0], [5, 0]] } : Plan).transfers 1 1 = 0 :=
  plan_no_overdonation _ _ (by decide) (by decide) 1 (by decide)

/-! ### Claim C3: per-canister flow conservation -/

/-- C3: in every returned plan, each canister's final fuel equals its
starting fuel plus the total it receives (its column sum) minus the
total it donates (its row sum). -/
theorem plan_flow_conservation (cans : List Can) (p : Plan)
    (hf : ∀ c ∈ cans, 0 ≤ c.fuel) (hok : solve_plan cans = .ok p) :
    ∀ i, i < cans.length →
      p.final_fuel.getD i 0 =
        (canAt cans i).fuel + inflow p.transfers i - outflow p.transfers i := by
  have hok' := solve_plan_ok_greedy cans p hok
  by_cases hT : total_fuel cans = 0
  · rcases solve_greedy_ok_inv cans p hok' with ⟨_, hp⟩ | ⟨hT', _⟩
    · subst hp
      intro i hi
      have hfz : (canAt cans i).fuel = 0 := by
        have hmem : (canAt cans i).fuel ∈ cans.map Can.fuel :=
          List.mem_map_of_mem _ (canAt_mem cans i hi)
        exact sum_zero_all_zero (cans.map Can.fuel)
          (fun x hx => by
            obtain ⟨c, hc, rfl⟩ := List.mem_map.mp hx
            exact hf c hc) hT _ hmem
      unfold trivialPlan
      dsimp only
      rw [getD_replicate, hfz]
      have h1 := zeroMat_inflow cans.length i
      have h2 := zeroMat_rowSum cans.length i
      unfold inflow at h1
      unfold zeroMat at h1 h2
      unfold inflow outflow
      rw [h1, h2]
      omega
    · exact absurd hT hT'
  · obtain ⟨keep, hsel, hrem, hzero, hp⟩ := solve_ok_main cans p hf hT hok'
    subst hp
    dsimp only
    intro i hi
    have hin := transferResult_inflow_ok cans keep hf hrem i
    rw [needAt_deficits] at hin
    by_cases hk : keep.getD i false = true
    · have hout : outflow (transferResult cans keep (distResult cans keep).1).1 i = 0 := by
        unfold outflow
        rw [transferResult_kept_row cans keep hrem i hk, zeroMat_rowSum]
      have hgef := distResult_kept_ge cans keep i (by omega) hi hk
      by_cases hpos : 0 < (distResult cans keep).1.getD i 0 - (canAt cans i).fuel
      · rw [if_pos ⟨List.mem_range.mpr hi, hpos⟩] at hin
        omega
      · rw [if_neg (fun hand => hpos hand.2)] at hin
        omega
    · have hk' : keep.getD i false = false := by simpa using hk
      have hfin0 : (distResult cans keep).1.getD i 0 = 0 :=
        distResult_unkept cans keep i (by rw [hk']; simp)
      have hfnn := hf _ (canAt_mem cans i hi)
      have hdon := donor_mem_unkept cans keep hrem i hi hk'
      have hout := (transferResult_drain cans keep hf hrem).2 _ hdon
      unfold outflow
      rw [if_neg (fun hand => by rw [hfin0] at hand; omega)] at hin
      rw [hfin0, hout, hin]
      omega

/-- Concrete instance of flow conservation at Scenario A, index 0 (the
recipient). -/
theorem plan_flow_conservation_witness :
    ({ keep := [true, false], final_fuel := [45, 0],
       transfers := [[0, 0], [5, 0]] } : Plan).final_fuel.getD 0 0 =
      (canAt [{ id := "", spec := MSR_110, gross := 141, fuel := 40 },
              { id := "", spec := MSR_227, gross := 152, fuel := 5 }] 0).fuel +
        inflow ({ keep := [true, false], final_fuel := [45, 0],
                  transfers := [[0, 0], [5, 0]] } : Plan).transfers 0 -
        outflow ({ keep := [true, false], final_fuel := [45, 0],
                   transfers := [[0, 0], [5, 0]] } : Plan).transfers 0 :=
  plan_flow_conservation _ _ (by decide) (by decide) 0 (by decide)

/-! ### Claim C1: lexicographic optimality of the kept subset -/

/-- C1: whenever some subset of the canisters can hold the (positive)
total fuel, `solve_plan` succeeds and its kept subset is
lexicographically optimal: no feasible subset has strictly smaller
total empty weight, and among equal empty weights none has strictly
smaller cardinality. -/
theorem plan_selection_optimal (cans : List Can)
    (hne : cans ≠ []) (hf : ∀ c ∈ cans, 0 ≤ c.fuel) (hT : 0 < total_fuel cans)
    (flags0 : List Bool) (hl0 : flags0.length = cans.length)
    (hfeas0 : total_fuel cans ≤ subsetCap cans flags0) :
    ∃ p, solve_plan cans = .ok p ∧
      total_fuel cans ≤ subsetCap cans p.keep ∧
      ∀ flags : List Bool, flags.length = cans.length →
        total_fuel cans ≤ subsetCap cans flags →
        subsetEW cans p.keep ≤ subsetEW cans flags ∧
        (subsetEW cans p.keep = subsetEW cans flags →
          subsetCount cans p.keep ≤ subsetCount cans flags) := by
  have hmask0 : ∃ m, 1 ≤ m ∧ m < 2 ^ cans.length ∧
      feasibleMask cans (total_fuel cans) m := by
    refine ⟨flagsMask flags0,
      flagsMask_pos cans (total_fuel cans) flags0 hT hfeas0, ?_, ?_⟩
    · have := flagsMask_lt flags0
      rw [hl0] at this
      exact this
    · unfold feasibleMask
      rw [maskFlags_flagsMask flags0 cans.length hl0]
      exact hfeas0
  obtain ⟨keep, hsel⟩ := selectBest_isSome cans (total_fuel cans) hmask0
  obtain ⟨hklen, hkfeas, hopt⟩ := selectBest_some_spec cans (total_fuel cans) keep hsel
  have hrem : (distResult cans keep).2 = 0 := by
    have h1 := distResult_rem_nonneg cans keep hf
    have h2 := distResult_rem_nonpos cans keep hkfeas
    omega
  have hdrain := transferResult_drain cans keep hf hrem
  have hany : ¬ ((transferResult cans keep (distResult cans keep).1).2.any
      (fun q => decide (0 < q.2)) = true) := by
    intro hx
    obtain ⟨q, hq, hq2⟩ := List.any_eq_true.mp hx
    have := hdrain.1 q hq
    simp only [decide_eq_true_eq] at hq2
    omega
  have hempty : ¬ cans.isEmpty = true := by
    cases cans with
    | nil => exact absurd rfl hne
    | cons c cs => simp
  have hok : solve_plan cans = .ok (Plan.mk keep (distResult cans keep).1
      (transferResult cans keep (distResult cans keep).1).1) := by
    unfold solve_plan
    rw [if_neg hempty]
    simp only [solve_greedy]
    rw [if_neg (by omega), hsel]
    dsimp only
    rw [if_neg (by omega), if_neg hany]
  refine ⟨_, hok, hkfeas, ?_⟩
  dsimp only
  intro flags hlen hfeas
  have hm1 : 1 ≤ flagsMask flags :=
    flagsMask_pos cans (total_fuel cans) flags hT hfeas
  have hm2 : flagsMask flags < 2 ^ cans.length := by
    have := flagsMask_lt flags
    rw [hlen] at this
    exact this
  have hmf : feasibleMask cans (total_fuel cans) (flagsMask flags) := by
    unfold feasibleMask
    rw [maskFlags_flagsMask flags cans.length hlen]
    exact hfeas
  have hlex := hopt (flagsMask flags) hm1 hm2 hmf
  rw [maskFlags_flagsMask flags cans.length hlen] at hlex
  unfold lexLE at hlex
  constructor
  · omega
  · intro he
    omega

/-- Concrete instance of selection optimality: the spec's Scenario A. -/
theorem plan_selection_optimal_witness :
    ∃ p, solve_plan [{ id := "", spec := MSR_110, gross := 141, fuel := 40 },
                     { id := "", spec := MSR_227, gross := 152, fuel := 5 }] = .ok p ∧
      total_fuel [{ id := "", spec := MSR_110, gross := 141, fuel := 40 },
                  { id := "", spec := MSR_227, gross := 152, fuel := 5 }] ≤
        subsetCap [{ id := "", spec := MSR_110, gross := 141, fuel := 40 },
                   { id := "", spec := MSR_227, gross := 152, fuel := 5 }] p.keep ∧
      ∀ flags : List Bool,
        flags.length = ([{ id := "", spec := MSR_110, gross := 141, fuel := 40 },
                         { id := "", spec := MSR_227, gross := 152, fuel := 5 }] : List Can).length →
        total_fuel [{ id := "", spec := MSR_110, gross := 141, fuel := 40 },
                    { id := "", spec := MSR_227, gross := 152, fuel := 5 }] ≤
          subsetCap [{ id := "", spec := MSR_110, gross := 141, fuel := 40 },
                     { id := "", spec := MSR_227, gross := 152, fuel := 5 }] flags →
        subsetEW [{ id := "", spec := MSR_110, gross := 141, fuel := 40 },
                  { id := "", spec := MSR_227, gross := 152, fuel := 5 }] p.keep ≤
          subsetEW [{ id := "", spec := MSR_110, gross := 141, fuel := 40 },
                    { id := "", spec := MSR_227, gross := 152, fuel := 5 }] flags ∧
        (subsetEW [{ id := "", spec := MSR_110, gross := 141, fuel := 40 },
                   { id := "", spec := MSR_227, gross := 152, fuel := 5 }] p.keep =
           subsetEW [{ id := "", spec := MSR_110, gross := 141, fuel := 40 },
                     { id := "", spec := MSR_227, gross := 152, fuel := 5 }] flags →
         subsetCount [{ id := "", spec := MSR_110, gross := 141, fuel := 40 },
                      { id := "", spec := MSR_227, gross := 152, fuel := 5 }] p.keep ≤
           subsetCount [{ id := "", spec := MSR_110, gross := 141, fuel := 40 },
                        { id := "", spec := MSR_227, gross := 152, fuel := 5 }] flags) :=
  plan_selection_optimal _ (by decide) (by decide) (by decide)
    [true, false] (by decide) (by decide)

/-! ### Claim C6: infeasibility detection -/

theorem total_capacity_eq_range (cans : List Can) :
    ((List.range cans.length).map (fun i => (canAt cans i).spec.capacity)).sum =
      (cans.map (fun c => c.spec.capacity)).sum := by
  have := range_getD_map cans (fun c => c.spec.capacity) dummyCan
  unfold canAt
  convert this using 2

/-- C6 (amended): when the combined capacity of all canisters is strictly
below the total fuel, `solve_plan` fails with the infeasibility error —
whose actual text is "unable to carry enough capacity", not the
"cannot carry enough capacity" quoted in the spec — and never returns a
`Plan`. -/
theorem plan_infeasible (cans : List Can) (hne : cans ≠ [])
    (hcap : ∀ c ∈ cans, 0 < c.spec.capacity) (hf : ∀ c ∈ cans, 0 ≤ c.fuel)
    (hlt : (cans.map (fun c => c.spec.capacity)).sum < total_fuel cans) :
    solve_plan cans = .error "unable to carry enough capacity" := by
  have hcnn : 0 ≤ (cans.map (fun c => c.spec.capacity)).sum :=
    List.sum_nonneg (fun x hx => by
      obtain ⟨c, hc, rfl⟩ := List.mem_map.mp hx
      exact le_of_lt (hcap c hc))
  have hT : 0 < total_fuel cans := by omega
  have hsub : ∀ flags : List Bool,
      subsetCap cans flags ≤ (cans.map (fun c => c.spec.capacity)).sum := by
    intro flags
    unfold subsetCap selIdxs
    rw [sum_filter_if]
    refine le_trans (List.sum_le_sum ?_) (le_of_eq (total_capacity_eq_range cans))
    intro i hi
    have hfc := hcap _ (canAt_mem cans i (List.mem_range.mp hi))
    by_cases h : flags.getD i false = true
    · rw [if_pos h]
    · rw [if_neg h]
      omega
  have hnone : selectBest cans (total_fuel cans) = none := by
    rcases hx : selectBest cans (total_fuel cans) with _ | f
    · rfl
    · obtain ⟨hflen, hffeas, _⟩ := selectBest_some_spec cans (total_fuel cans) f hx
      have := hsub f
      omega
  have hempty : ¬ cans.isEmpty = true := by
    cases cans with
    | nil => exact absurd rfl hne
    | cons c cs => simp
  unfold solve_plan
  rw [if_neg hempty]
  simp only [solve_greedy]
  rw [if_neg (by omega), hnone]

/-- C6 counterexample: on a single over-heavy `MSR_110` can (gross 301 g,
fuel 200 g > total capacity 110 g) `solve_plan` returns the error
"unable to carry enough capacity", not the message "cannot carry enough
capacity" that the claim quotes. -/
theorem plan_infeasible_cex :
    (([{ id := "", spec := MSR_110, gross := 301, fuel := 200 }] : List Can).map
        (fun c => c.spec.capacity)).sum <
      total_fuel [{ id := "", spec := MSR_110, gross := 301, fuel := 200 }] ∧
    solve_plan [{ id := "", spec := MSR_110, gross := 301, fuel := 200 }] =
      .error "unable to carry enough capacity" ∧
    ¬ solve_plan [{ id := "", spec := MSR_110, gross := 301, fuel := 200 }] =
      .error "cannot carry enough capacity" := by
  decide

/-- Concrete instance of the amended infeasibility theorem. -/
theorem plan_infeasible_witness :
    solve_plan [{ id := "", spec := MSR_110, gross := 301, fuel := 200 }] =
      .error "unable to carry enough capacity" :=
  plan_infeasible _ (by decide) (by decide) (by decide) (by decide)

end FuelCan
